import Mathlib

set_option maxHeartbeats 1000000

/-!
Shallow embedding of JSDev, Douglas Crockford's JavaScript preprocessor
(src/jsdev.js, 2016-01-13 revision, and src/unnamed/part_000, the 2017-09-20
ES-module revision).

Modelling conventions:
* A JavaScript character (a one-character string) is a Lean `Char`; the
  `null`/`undefined` sentinel returned by `get` at end of input is `none`
  in `Option Char`.
* The mutable variables `line`, `line_nr`, `preview` and the `outputs`
  array are a state record `St`; the field `line_nr1` stores the JS value
  `line_nr + 1` as a `Nat` (JS initializes `line_nr` to -1 and only ever
  increments it, so `line_nr + 1` is a natural number; the error formatter
  tests this very quantity for zero).
* `throw new Error(...)` is the `Res.err` constructor carrying the full
  message string; unbounded `while` loops take a fuel argument and return
  `Res.timeout` when it runs out (the top level is run with ample fuel).
-/

namespace JSDev

inductive Res (α : Type) where
  | ok (a : α)
  | err (e : String)
  | timeout
deriving DecidableEq, Repr

/-- The scanner state: the split input `lines`, the JS variables
`line_nr` (shifted by one, see above), `line`, `preview`, and the output
accumulator (`outputs` joined into one list of characters). -/
structure St where
  lines : List (List Char)
  line_nr1 : Nat
  line : Option (List Char)
  preview : Option Char
  out : List Char
deriving DecidableEq, Repr

/-- `error(message)`: the thrown message is
`"JSDev: " + ((line_nr + 1) || "bad tag") + " " + message`; `line_nr + 1`
is falsy exactly when it is 0 (our `line_nr1`). -/
def errMsg (line_nr1 : Nat) (message : String) : String :=
  "JSDev: " ++ (if line_nr1 = 0 then "bad tag" else toString line_nr1) ++
    " " ++ message

/-- `is_alphanum`: letter, digit, underscore, dollar sign, or period. -/
def is_alphanum (c : Char) : Bool :=
  (('a' ≤ c) && (c ≤ 'z')) ||
  (('0' ≤ c) && (c ≤ '9')) ||
  (('A' ≤ c) && (c ≤ 'Z')) ||
  (c == '_') || (c == '$') || (c == '.')

/-- `emit(string)`: push a fragment onto the output (pushing the empty
fragment is a no-op either way). -/
def emit (s : List Char) (st : St) : St :=
  { st with out := st.out ++ s }

/-- The core of `get` without the echo step.  Mirrors the JS branch
structure: a buffered `preview` character wins; otherwise the current
`line` is consumed ( `""` yields the line-break `'\n'` and clears `line`);
otherwise `line_nr` is advanced and the next line is fetched, an absent
entry meaning end of input (`none`). -/
def getRaw (st : St) : Option Char × St :=
  match st.preview with
  | some c => (some c, { st with preview := none })
  | none =>
    match st.line with
    | some [] => (some '\n', { st with line := none })
    | some (c :: rest) => (some c, { st with line := some rest })
    | none =>
      match st.lines[st.line_nr1]? with
      | some [] => (some '\n', { st with line_nr1 := st.line_nr1 + 1, line := none })
      | some (c :: rest) =>
        (some c, { st with line_nr1 := st.line_nr1 + 1, line := some rest })
      | none => (none, { st with line_nr1 := st.line_nr1 + 1 })

/-- `get(echo)`: return the next character, echoing it to the output when
`echo` is true (`emit(null)` emits nothing). -/
def get (echo : Bool) (st : St) : Option Char × St :=
  match getRaw st with
  | (c, st1) =>
    (c, if echo then
          match c with
          | some ch => emit [ch] st1
          | none => st1
        else st1)

/-- `peek()`: memoize the next character in the `preview` slot. -/
def peek (st : St) : Option Char × St :=
  match st.preview with
  | some c => (some c, st)
  | none =>
    match getRaw st with
    | (c, st1) => (c, { st1 with preview := c })

/-- `unget(c)`: push a character (or the end sentinel) back. -/
def unget (c : Option Char) (st : St) : St :=
  { st with preview := c }

/-- The body of `string(quote, in_comment)`, with the entry value `was` of
`line_nr` (restored on the unterminated error path) made explicit. -/
def stringLoop (quote : Char) (in_comment : Bool) (was : Nat) :
    Nat → St → Res St
  | 0, _ => Res.timeout
  | fuel + 1, st =>
    match get true st with
    | (c, st) =>
      if c = some quote then Res.ok st
      else
        match (if c = some '\\' then get true st else (c, st)) with
        | (c, st) =>
          if in_comment ∧ c = some '*' then
            match peek st with
            | (p, st) =>
              if p = some '/' then
                Res.err (errMsg st.line_nr1 "unexpected close comment in string.")
              else stringLoop quote in_comment was fuel st
          else if c = none then
            Res.err (errMsg was "unterminated string literal.")
          else stringLoop quote in_comment was fuel st

/-- `string(quote, in_comment)`. -/
def string (quote : Char) (in_comment : Bool) (fuel : Nat) (st : St) : Res St :=
  stringLoop quote in_comment st.line_nr1 fuel st

/-- `pre_regexp(left)`: the characters that may legally precede a regexp
literal.  `left` is `none` for the initial JS value `0`, which is equal to
none of the characters. -/
def pre_regexp (left : Option Char) : Bool :=
  left = some '(' || left = some ',' || left = some '=' || left = some ':' ||
  left = some '[' || left = some '!' || left = some '&' || left = some '|' ||
  left = some '?' || left = some '\x7b' || left = some '\x7d' || left = some ';'

/-- The inner `[...]` character-class loop of `regexp(in_comment)`.
Note that its end-of-input error does not restore `line_nr` (the source
omits the `line_nr = was` assignment on this one path). -/
def classLoop (in_comment : Bool) : Nat → St → Res St
  | 0, _ => Res.timeout
  | fuel + 1, st =>
    match get true st with
    | (c, st) =>
      if c = some ']' then Res.ok st
      else
        match (if c = some '\\' then get true st else (c, st)) with
        | (c, st) =>
          if in_comment ∧ c = some '*' then
            match peek st with
            | (p, st) =>
              if p = some '/' then
                Res.err (errMsg st.line_nr1 "unexpected close comment in regexp.")
              else classLoop in_comment fuel st
          else if c = none then
            Res.err (errMsg st.line_nr1 "unterminated set in Regular Expression literal.")
          else classLoop in_comment fuel st

/-- The body of `regexp(in_comment)` with the entry `line_nr` value `was`
explicit.  After the character-class loop ends at `]`, the common checks
cannot fire (`]` is neither `*` nor the end sentinel), so the outer loop
simply continues. -/
def regexpLoop (in_comment : Bool) (was : Nat) : Nat → St → Res St
  | 0, _ => Res.timeout
  | fuel + 1, st =>
    match get true st with
    | (c, st) =>
      if c = some '[' then
        match classLoop in_comment fuel st with
        | Res.ok st => regexpLoop in_comment was fuel st
        | e => e
      else if c = some '/' then
        if in_comment then
          match peek st with
          | (p, st) =>
            if p = some '/' ∨ p = some '*' then
              Res.err (errMsg st.line_nr1 "unexpected comment.")
            else Res.ok st
        else Res.ok st
      else
        match (if c = some '\\' then get true st else (c, st)) with
        | (c, st) =>
          if in_comment ∧ c = some '*' then
            match peek st with
            | (p, st) =>
              if p = some '/' then
                Res.err (errMsg st.line_nr1 "unexpected comment.")
              else regexpLoop in_comment was fuel st
          else if c = none then
            Res.err (errMsg was "unterminated regexp literal.")
          else regexpLoop in_comment was fuel st

/-- `regexp(in_comment)`. -/
def regexp (in_comment : Bool) (fuel : Nat) (st : St) : Res St :=
  regexpLoop in_comment st.line_nr1 fuel st

/-- `if (c > ' ') left = c` — record the character to the left when it is
above the space character. -/
def updLeft (left : Option Char) (c : Option Char) : Option Char :=
  match c with
  | some ch => if ' ' < ch then some ch else left
  | none => left

/-- `condition()`: scan a balanced parens/braces/brackets region just after
the opening `(`, echoing every character; quotes and slashes delegate to the
literal skippers.  The JS `if/else if` chain is rendered as a match on the
(mutually exclusive) cases; `paren -= 1; if (paren === 0) return;` is the
explicit test `paren - 1 = 0`. -/
def conditionLoop (left : Option Char) (paren : Int) : Nat → St → Res St
  | 0, _ => Res.timeout
  | fuel + 1, st =>
    match get true st with
    | (c, st) =>
      match c with
      | some '(' => conditionLoop (updLeft left c) (paren + 1) fuel st
      | some '\x7b' => conditionLoop (updLeft left c) (paren + 1) fuel st
      | some '[' => conditionLoop (updLeft left c) (paren + 1) fuel st
      | some ')' =>
        if paren - 1 = 0 then Res.ok st
        else conditionLoop (updLeft left c) (paren - 1) fuel st
      | some '\x7d' =>
        if paren - 1 = 0 then Res.ok st
        else conditionLoop (updLeft left c) (paren - 1) fuel st
      | some ']' =>
        if paren - 1 = 0 then Res.ok st
        else conditionLoop (updLeft left c) (paren - 1) fuel st
      | none => Res.err (errMsg st.line_nr1 "Unterminated condition.")
      | some '\'' =>
        (match string '\'' true fuel st with
         | Res.ok st => conditionLoop (updLeft left (some '\'')) paren fuel st
         | e => e)
      | some '"' =>
        (match string '"' true fuel st with
         | Res.ok st => conditionLoop (updLeft left (some '"')) paren fuel st
         | e => e)
      | some '\x60' =>
        (match string '\x60' true fuel st with
         | Res.ok st => conditionLoop (updLeft left (some '\x60')) paren fuel st
         | e => e)
      | some '/' =>
        (match peek st with
         | (p, st) =>
           if p = some '/' ∨ p = some '*' then
             Res.err (errMsg st.line_nr1 "unexpected comment.")
           else if pre_regexp left then
             match regexp true fuel st with
             | Res.ok st => conditionLoop (updLeft left (some '/')) paren fuel st
             | e => e
           else conditionLoop (updLeft left (some '/')) paren fuel st)
      | some '*' =>
        (match peek st with
         | (p, st) =>
           if p = some '/' then Res.err (errMsg st.line_nr1 "unclosed condition.")
           else conditionLoop (updLeft left (some '*')) paren fuel st)
      | some ch => conditionLoop (updLeft left (some ch)) paren fuel st

/-- `condition()` starts with `left = '{'` and `paren = 0`. -/
def condition (fuel : Nat) (st : St) : Res St :=
  conditionLoop (some '\x7b') 0 fuel st

/-- The leading `while (peek() === ' ') get(false)` of `stuff()`. -/
def spaceSkip : Nat → St → Res St
  | 0, _ => Res.timeout
  | fuel + 1, st =>
    match peek st with
    | (p, st) =>
      if p = some ' ' then spaceSkip fuel (get false st).2
      else Res.ok st

/-- The inner `while (peek() === '*')` loop of `stuff()`: a `*` directly
followed by `/` terminates the comment (`true`), fatally if the bracket
depth is still positive; any other `*` run is echoed. -/
def starLoop (paren : Int) : Nat → St → Res (Bool × St)
  | 0, _ => Res.timeout
  | fuel + 1, st =>
    match peek st with
    | (p, st) =>
      if p = some '*' then
        match get false st with
        | (_, st) =>
          match peek st with
          | (p2, st) =>
            if p2 = some '/' then
              match get false st with
              | (_, st) =>
                if paren > 0 then Res.err (errMsg st.line_nr1 "Unbalanced stuff")
                else Res.ok (true, st)
            else starLoop paren fuel (emit ['*'] st)
      else Res.ok (false, st)

/-- The main loop of `stuff()`: the star loop first, then one character,
classified exactly as the JS `if/else if` chain does. -/
def stuffLoop (left : Option Char) (paren : Int) : Nat → St → Res St
  | 0, _ => Res.timeout
  | fuel + 1, st =>
    match starLoop paren (fuel + 1) st with
    | Res.err e => Res.err e
    | Res.timeout => Res.timeout
    | Res.ok (true, st) => Res.ok st
    | Res.ok (false, st) =>
      match get true st with
      | (c, st) =>
        match c with
        | none => Res.err (errMsg st.line_nr1 "Unterminated stuff.")
        | some '\'' =>
          (match string '\'' true fuel st with
           | Res.ok st => stuffLoop (updLeft left (some '\'')) paren fuel st
           | e => e)
        | some '"' =>
          (match string '"' true fuel st with
           | Res.ok st => stuffLoop (updLeft left (some '"')) paren fuel st
           | e => e)
        | some '\x60' =>
          (match string '\x60' true fuel st with
           | Res.ok st => stuffLoop (updLeft left (some '\x60')) paren fuel st
           | e => e)
        | some '(' => stuffLoop (updLeft left (some '(')) (paren + 1) fuel st
        | some '\x7b' => stuffLoop (updLeft left (some '\x7b')) (paren + 1) fuel st
        | some '[' => stuffLoop (updLeft left (some '[')) (paren + 1) fuel st
        | some ')' =>
          if paren - 1 < 0 then Res.err (errMsg st.line_nr1 "Unbalanced stuff")
          else stuffLoop (updLeft left (some ')')) (paren - 1) fuel st
        | some '\x7d' =>
          if paren - 1 < 0 then Res.err (errMsg st.line_nr1 "Unbalanced stuff")
          else stuffLoop (updLeft left (some '\x7d')) (paren - 1) fuel st
        | some ']' =>
          if paren - 1 < 0 then Res.err (errMsg st.line_nr1 "Unbalanced stuff")
          else stuffLoop (updLeft left (some ']')) (paren - 1) fuel st
        | some '/' =>
          (match peek st with
           | (p, st) =>
             if p = some '/' ∨ p = some '*' then
               Res.err (errMsg st.line_nr1 "unexpected comment.")
             else if pre_regexp left then
               match regexp true fuel st with
               | Res.ok st => stuffLoop (updLeft left (some '/')) paren fuel st
               | e => e
             else stuffLoop (updLeft left (some '/')) paren fuel st)
        | some ch => stuffLoop (updLeft left (some ch)) paren fuel st

/-- `stuff()`: skip leading spaces, then the main loop with `left = '{'`
and `paren = 0`. -/
def stuff (fuel : Nat) (st : St) : Res St :=
  match spaceSkip fuel st with
  | Res.ok st => stuffLoop (some '\x7b') 0 fuel st
  | e => e

/-- `expand(tag_nr)`: the four expansion shapes, driven by whether the next
character is `(` and whether the tag carries a bound method. -/
def expand (methods : List (Option (List Char))) (tag_nr : Nat)
    (fuel : Nat) (st : St) : Res St :=
  match peek st with
  | (c, st) =>
    match (if c = some '(' then
             match condition fuel (emit "if ".data st) with
             | Res.ok st => Res.ok (emit [' '] st)
             | e => e
           else Res.ok st) with
    | Res.ok st =>
      let st := emit ['\x7b'] st
      match methods.getD tag_nr none with
      | some m =>
        (match stuff fuel (emit (m ++ ['(']) st) with
         | Res.ok st => Res.ok (emit [')', ';', '\x7d'] st)
         | e => e)
      | none =>
        (match stuff fuel st with
         | Res.ok st => Res.ok (emit ['\x7d'] st)
         | e => e)
    | e => e

/-- The `//` line-comment loop of `process`: echo through the end of the
line (or of the input). -/
def lineCommentLoop : Nat → St → Res St
  | 0, _ => Res.timeout
  | fuel + 1, st =>
    match get true st with
    | (c, st) =>
      if c = some '\n' ∨ c = some '\r' ∨ c = none then Res.ok st
      else lineCommentLoop fuel st

/-- The candidate-tag scan of `process`: greedily read an `is_alphanum` run
after `/*` (unechoed), returning the run and the first non-matching
character (which the caller pushes back). -/
def tagScan : Nat → St → Res (List Char × Option Char × St)
  | 0, _ => Res.timeout
  | fuel + 1, st =>
    match get false st with
    | (c, st) =>
      match c with
      | some ch =>
        if is_alphanum ch then
          match tagScan fuel st with
          | Res.ok (t, b, st) => Res.ok (ch :: t, b, st)
          | Res.err e => Res.err e
          | Res.timeout => Res.timeout
        else Res.ok ([], some ch, st)
      | none => Res.ok ([], none, st)

/-- The copy loop of `process` for a block comment whose candidate tag did
not match: echo every character through the closing `*/`, rejecting a
nested `/*` and end of input.  The current character `c` (already consumed
by the tag scan and pushed back) drives each iteration. -/
def echoCommentLoop (c : Option Char) : Nat → St → Res St
  | 0, _ => Res.timeout
  | fuel + 1, st =>
    match c with
    | none => Res.err (errMsg st.line_nr1 "unterminated comment.")
    | some ch =>
      if ch = '/' then
        match get true st with
        | (c2, st) =>
          if c2 = some '*' then Res.err (errMsg st.line_nr1 "nested comment.")
          else echoCommentLoop c2 fuel st
      else if ch = '*' then
        match get true st with
        | (c2, st) =>
          if c2 = some '/' then Res.ok st
          else echoCommentLoop c2 fuel st
      else
        match get true st with
        | (c2, st) => echoCommentLoop c2 fuel st

/-- The main loop of `process`, classifying the current character.  After a
top-level string literal the JS sets `c = 0`; on the next iteration
`emit(0)` emits nothing, `0 > ' '` is false (so `left` is unchanged) and
`c = get(false)` runs — that spent iteration is inlined here. -/
def processLoop (tags : List (List Char)) (methods : List (Option (List Char))) :
    Nat → Option Char → Option Char → St → Res St
  | 0, _, _, _ => Res.timeout
  | fuel + 1, c, left, st =>
    match c with
    | none => Res.ok st
    | some ch =>
      if ch = '\'' ∨ ch = '"' ∨ ch = '\x60' then
        match string ch false fuel (emit [ch] st) with
        | Res.ok st =>
          (match get false st with
           | (c, st) => processLoop tags methods fuel c left st)
        | e => e
      else if ch = '/' then
        match peek st with
        | (p, st) =>
          if p = some '/' then
            match lineCommentLoop fuel (emit ['/'] st) with
            | Res.ok st =>
              (match get false st with
               | (c, st) => processLoop tags methods fuel c left st)
            | e => e
          else if p = some '*' then
            match get false st with
            | (_, st) =>
              match tagScan fuel st with
              | Res.ok (tag, b, st) =>
                let st := unget b st
                match (if tag = [] then none
                       else List.findIdx? (fun t => t = tag) tags) with
                | some i =>
                  (match expand methods i fuel st with
                   | Res.ok st =>
                     (match get false st with
                      | (c, st) => processLoop tags methods fuel c left st)
                   | e => e)
                | none =>
                  (match echoCommentLoop b fuel (emit ('/' :: '*' :: tag) st) with
                   | Res.ok st =>
                     (match get false st with
                      | (c, st) => processLoop tags methods fuel c left st)
                   | e => e)
              | Res.err e => Res.err e
              | Res.timeout => Res.timeout
          else
            match (if pre_regexp left then regexp false fuel (emit ['/'] st)
                   else Res.ok (emit ['/'] st)) with
            | Res.ok st =>
              (match get false st with
               | (c, st) => processLoop tags methods fuel c (some '/') st)
            | e => e
      else
        match get false (emit [ch] st) with
        | (c2, st) =>
          processLoop tags methods fuel c2 (if ' ' < ch then some ch else left) st

/-- `process()`: fetch the first character and run the loop; the JS `left`
starts as the number `0`, equal to no character (`none`). -/
def process (tags : List (List Char)) (methods : List (Option (List Char)))
    (fuel : Nat) (st : St) : Res St :=
  match get false st with
  | (c, st) => processLoop tags methods fuel c none st

/-- The anchored tag pattern `^([0-9A-Za-z_$.]+)(?::([0-9A-Za-z_$.]+))?$`:
a non-empty run of tag characters, optionally a colon and a second
non-empty run, nothing else.  Returns the two capture groups. -/
def tagMatch (s : List Char) : Option (List Char × Option (List Char)) :=
  let name := s.takeWhile is_alphanum
  if name = [] then none
  else
    match s.drop name.length with
    | [] => some (name, none)
    | ':' :: rest =>
      if rest ≠ [] ∧ rest.all is_alphanum then some (name, some rest) else none
    | _ => none

/-- The tag-validation pass of `jsdev`: `tags.map` over the declarations,
throwing `error(value)` (with `line_nr` still -1, hence the "bad tag"
marker) on the first mismatch; an entry with a `:method` suffix is
overwritten in the tags array by its bare name, and the method goes to the
`methods` table. -/
def checkTags : List (List Char) → Res (List (List Char) × List (Option (List Char)))
  | [] => Res.ok ([], [])
  | t :: rest =>
    match tagMatch t with
    | none => Res.err (errMsg 0 (String.mk t))
    | some (name, meth) =>
      match checkTags rest with
      | Res.ok (ts, ms) =>
        Res.ok ((if meth.isSome then name else t) :: ts, meth :: ms)
      | Res.err e => Res.err e
      | Res.timeout => Res.timeout

/-- The scanner of `source.split(/\n|\r\n?/)`, one character at a time:
`\n` separates lines, `\r` separates lines and swallows one directly
following `\n` (the greedy `\r\n?` alternative); `prevCr` records whether
the previous character was a line-splitting `\r`. -/
def splitEol : Bool → List Char → List (List Char)
  | _, [] => [[]]
  | prevCr, c :: rest =>
    if c = '\n' then
      if prevCr then splitEol false rest
      else [] :: splitEol false rest
    else if c = '\r' then [] :: splitEol true rest
    else
      match splitEol false rest with
      | [] => [[c]]
      | l :: ls => (c :: l) :: ls

/-- `source.split(/\n|\r\n?/)`. -/
def jsSplit (cs : List Char) : List (List Char) :=
  splitEol false cs

/-- The `source` argument: a single text or an already-split list of lines. -/
inductive JSource where
  | str (s : String)
  | arr (ls : List String)

/-- The optional `comments` argument: absent (or any unrecognized value),
a single string, or a list of strings. -/
inductive JComments where
  | absent
  | str (s : String)
  | arr (ls : List String)

/-- The header fragments emitted for the `comments` argument before
anything else: each string becomes `// <string>\n`. -/
def headerOut : JComments → List Char
  | JComments.absent => []
  | JComments.str s => "// ".data ++ s.data ++ ['\n']
  | JComments.arr ls => ls.flatMap (fun s => "// ".data ++ s.data ++ ['\n'])

/-- The `lines` array: a string source is split, a list source is used
as supplied. -/
def sourceLines : JSource → List (List Char)
  | JSource.str s => jsSplit s.data
  | JSource.arr ls => ls.map String.data

/-- The initial scanner state for a run. -/
def initSt (source : JSource) (comments : JComments) : St :=
  { lines := sourceLines source, line_nr1 := 0, line := none,
    preview := none, out := headerOut comments }

/-- `jsdev(source, tags, comments)`: emit the header comments, validate the
tag declarations, split the source, process it, and join the output. -/
def jsdev (fuel : Nat) (source : JSource) (tags : List String)
    (comments : JComments) : Res String :=
  match checkTags (tags.map String.data) with
  | Res.ok (ts, ms) =>
    (match process ts ms fuel (initSt source comments) with
     | Res.ok st => Res.ok (String.mk st.out)
     | Res.err e => Res.err e
     | Res.timeout => Res.timeout)
  | Res.err e => Res.err e
  | Res.timeout => Res.timeout

/-! ### The virtual character stream

`rem st` is the exact sequence of characters that repeated `get` calls
would deliver from state `st` before the end-of-input sentinel: the
buffered `preview` character, the remainder of the current line with its
terminating `'\n'`, and every following line with its terminating `'\n'`.
-/

def optList : Option Char → List Char
  | some c => [c]
  | none => []

def remCore (st : St) : List Char :=
  (match st.line with
   | some l => l ++ ['\n']
   | none => []) ++
  (st.lines.drop st.line_nr1).flatMap (fun l => l ++ ['\n'])

def rem (st : St) : List Char :=
  optList st.preview ++ remCore st

theorem dropShape (ls : List (List Char)) (n : Nat) :
    (ls[n]? = none ∧ ls.drop n = [] ∧ ls.drop (n + 1) = []) ∨
    (∃ l, ls[n]? = some l ∧ ls.drop n = l :: ls.drop (n + 1)) := by
  rcases h : ls[n]? with _ | l
  · left
    have hlen : ls.length ≤ n := by
      by_contra hlt
      push_neg at hlt
      simp [List.getElem?_eq_getElem hlt] at h
    exact ⟨rfl, List.drop_eq_nil_iff.mpr hlen,
      List.drop_eq_nil_iff.mpr (le_trans hlen (Nat.le_succ n))⟩
  · right
    have hlt : n < ls.length := by
      by_contra hge
      push_neg at hge
      simp [List.getElem?_eq_none hge] at h
    refine ⟨l, rfl, ?_⟩
    rw [List.drop_eq_getElem_cons hlt]
    have : ls[n] = l := by simpa [List.getElem?_eq_getElem hlt] using h
    rw [this]

theorem getRaw_spec (st : St) :
    (getRaw st).1 = (rem st).head? ∧
    rem (getRaw st).2 = (rem st).tail ∧
    (getRaw st).2.out = st.out ∧
    (getRaw st).2.preview = none := by
  unfold getRaw rem remCore
  rcases st with ⟨lines, n, line, preview, out⟩
  rcases preview with _ | pc
  · rcases line with _ | l
    · rcases dropShape lines n with ⟨h1, h2, h3⟩ | ⟨l, h1, h2⟩
      · simp [h1, h2, h3, optList]
      · rcases l with _ | ⟨c, rest⟩ <;> simp [h1, h2, optList]
    · rcases l with _ | ⟨c, rest⟩ <;> simp [optList]
  · simp [optList]

theorem rem_emit (s : List Char) (st : St) : rem (emit s st) = rem st := rfl

theorem out_emit (s : List Char) (st : St) : (emit s st).out = st.out ++ s := rfl

theorem get_spec (echo : Bool) (st : St) :
    (get echo st).1 = (rem st).head? ∧
    rem (get echo st).2 = (rem st).tail ∧
    (get echo st).2.out =
      st.out ++ (if echo then optList (get echo st).1 else []) := by
  obtain ⟨h1, h2, h3, _⟩ := getRaw_spec st
  unfold get
  rcases hg : getRaw st with ⟨c, st1⟩
  rw [hg] at h1 h2 h3
  rcases c with _ | ch <;> rcases echo <;>
    simp_all [rem_emit, out_emit, optList]

theorem get_true_cons {st st' : St} {c : Char} (h : get true st = (some c, st')) :
    rem st = c :: rem st' ∧ st'.out = st.out ++ [c] := by
  obtain ⟨h1, h2, h3⟩ := get_spec true st
  rw [h] at h1 h2 h3
  refine ⟨?_, by simpa [optList] using h3⟩
  have := List.head?_eq_getElem? (rem st)
  rcases hr : rem st with _ | ⟨a, rest⟩
  · rw [hr] at h1; simp at h1
  · rw [hr] at h1 h2
    simp at h1 h2
    simp [h1, h2]

theorem get_false_cons {st st' : St} {c : Char} (h : get false st = (some c, st')) :
    rem st = c :: rem st' ∧ st'.out = st.out := by
  obtain ⟨h1, h2, h3⟩ := get_spec false st
  rw [h] at h1 h2 h3
  refine ⟨?_, by simpa using h3⟩
  rcases hr : rem st with _ | ⟨a, rest⟩
  · rw [hr] at h1; simp at h1
  · rw [hr] at h1 h2
    simp at h1 h2
    simp [h1, h2]

theorem get_eof {echo : Bool} {st st' : St} (h : get echo st = (none, st')) :
    rem st = [] ∧ rem st' = [] ∧ st'.out = st.out := by
  obtain ⟨h1, h2, h3⟩ := get_spec echo st
  rw [h] at h1 h2 h3
  have hnil : rem st = [] := by
    rcases hr : rem st with _ | ⟨a, rest⟩
    · rfl
    · rw [hr] at h1; simp at h1
  refine ⟨hnil, by rw [hnil] at h2; simpa using h2, ?_⟩
  rcases echo <;> simpa [optList] using h3

theorem peek_spec (st : St) :
    (peek st).1 = (rem st).head? ∧
    rem (peek st).2 = rem st ∧
    (peek st).2.out = st.out := by
  unfold peek
  rcases hp : st.preview with _ | pc
  · obtain ⟨h1, h2, h3, h4⟩ := getRaw_spec st
    rcases hg : getRaw st with ⟨c, st1⟩
    rw [hg] at h1 h2 h3 h4
    simp only at h1 h2 h3 h4 ⊢
    refine ⟨h1, ?_, h3⟩
    have hrem2 : rem { st1 with preview := c } = optList c ++ remCore st1 := rfl
    have hrem1 : rem st1 = remCore st1 := by
      unfold rem
      rw [h4]
      rfl
    rw [hrem2]
    have hcore : remCore st1 = (rem st).tail := by rw [← h2, hrem1]
    rw [hcore]
    rcases hr : rem st with _ | ⟨a, rest⟩
    · rw [hr] at h1
      simp only [List.head?_nil] at h1
      rw [h1]
      rfl
    · rw [hr] at h1
      simp only [List.head?_cons] at h1
      rw [h1]
      rfl
  · refine ⟨?_, ?_, ?_⟩
    · simp [hp, rem, optList]
    · simp [hp]
    · simp [hp]


/-! ### Consumption accounting for the literal skippers and extractors

Each skipper echoes exactly the characters it consumes: when it returns
normally, the output grew by precisely the consumed prefix of the stream.
-/

theorem stringLoop_consumes (q : Char) (ic : Bool) (was : Nat) :
    ∀ fuel (st st' : St), stringLoop q ic was fuel st = Res.ok st' →
      ∃ d, rem st = d ++ rem st' ∧ st'.out = st.out ++ d := by
  intro fuel
  induction fuel with
  | zero =>
    intro st st' h
    simp [stringLoop] at h
  | succ fuel ih =>
    intro st st' h
    rcases hg : get true st with ⟨c, st1⟩
    simp only [stringLoop, hg] at h
    by_cases hq : c = some q
    · rw [if_pos hq] at h
      obtain rfl : st1 = st' := by cases h; rfl
      subst hq
      obtain ⟨hr, ho⟩ := get_true_cons hg
      exact ⟨[q], by simpa using hr, ho⟩
    · rw [if_neg hq] at h
      by_cases hb : c = some '\\'
      · rw [if_pos hb] at h
        subst hb
        obtain ⟨hr1, ho1⟩ := get_true_cons hg
        rcases hg2 : get true st1 with ⟨c2, st2⟩
        rw [hg2] at h
        simp only at h
        by_cases hic : ic ∧ c2 = some '*'
        · rw [if_pos hic] at h
          rcases hp : peek st2 with ⟨p, st3⟩
          rw [hp] at h
          simp only at h
          by_cases hps : p = some '/'
          · rw [if_pos hps] at h
            cases h
          · rw [if_neg hps] at h
            obtain ⟨d3, hr3, ho3⟩ := ih st3 st' h
            obtain ⟨hp1, hp2, hp3⟩ := peek_spec st2
            rw [hp] at hp1 hp2 hp3
            obtain ⟨hr2, ho2⟩ := get_true_cons (hic.2 ▸ hg2)
            refine ⟨'\\' :: '*' :: d3, ?_, ?_⟩
            · rw [hr1, hr2, ← hp2, hr3]
              simp
            · rw [ho3, hp3, ho2, ho1]
              simp
        · rw [if_neg hic] at h
          by_cases hn : c2 = none
          · rw [if_pos hn] at h
            cases h
          · rw [if_neg hn] at h
            obtain ⟨d2, hr2a, ho2a⟩ := ih st2 st' h
            rcases c2 with _ | ch2
            · exact absurd rfl hn
            obtain ⟨hr2, ho2⟩ := get_true_cons hg2
            refine ⟨'\\' :: ch2 :: d2, ?_, ?_⟩
            · rw [hr1, hr2, hr2a]
              simp
            · rw [ho2a, ho2, ho1]
              simp
      · rw [if_neg hb] at h
        simp only at h
        by_cases hic : ic ∧ c = some '*'
        · rw [if_pos hic] at h
          rcases hp : peek st1 with ⟨p, st3⟩
          rw [hp] at h
          simp only at h
          by_cases hps : p = some '/'
          · rw [if_pos hps] at h
            cases h
          · rw [if_neg hps] at h
            obtain ⟨d3, hr3, ho3⟩ := ih st3 st' h
            obtain ⟨hp1, hp2, hp3⟩ := peek_spec st1
            rw [hp] at hp1 hp2 hp3
            obtain ⟨hr1, ho1⟩ := get_true_cons (hic.2 ▸ hg)
            refine ⟨'*' :: d3, ?_, ?_⟩
            · rw [hr1, ← hp2, hr3]
              simp
            · rw [ho3, hp3, ho1]
              simp
        · rw [if_neg hic] at h
          by_cases hn : c = none
          · rw [if_pos hn] at h
            cases h
          · rw [if_neg hn] at h
            obtain ⟨d1, hr1a, ho1a⟩ := ih st1 st' h
            rcases c with _ | ch
            · exact absurd rfl hn
            obtain ⟨hr1, ho1⟩ := get_true_cons hg
            refine ⟨ch :: d1, ?_, ?_⟩
            · rw [hr1, hr1a]
              simp
            · rw [ho1a, ho1]
              simp


theorem classLoop_consumes (ic : Bool) :
    ∀ fuel (st st' : St), classLoop ic fuel st = Res.ok st' →
      ∃ d, rem st = d ++ rem st' ∧ st'.out = st.out ++ d := by
  intro fuel
  induction fuel with
  | zero =>
    intro st st' h
    simp [classLoop] at h
  | succ fuel ih =>
    intro st st' h
    rcases hg : get true st with ⟨c, st1⟩
    simp only [classLoop, hg] at h
    by_cases hq : c = some ']'
    · rw [if_pos hq] at h
      obtain rfl : st1 = st' := by cases h; rfl
      subst hq
      obtain ⟨hr, ho⟩ := get_true_cons hg
      exact ⟨[']'], by simpa using hr, ho⟩
    · rw [if_neg hq] at h
      by_cases hb : c = some '\\'
      · rw [if_pos hb] at h
        subst hb
        obtain ⟨hr1, ho1⟩ := get_true_cons hg
        rcases hg2 : get true st1 with ⟨c2, st2⟩
        rw [hg2] at h
        simp only at h
        by_cases hic : ic ∧ c2 = some '*'
        · rw [if_pos hic] at h
          rcases hp : peek st2 with ⟨p, st3⟩
          rw [hp] at h
          simp only at h
          by_cases hps : p = some '/'
          · rw [if_pos hps] at h
            cases h
          · rw [if_neg hps] at h
            obtain ⟨d3, hr3, ho3⟩ := ih st3 st' h
            obtain ⟨hp1, hp2, hp3⟩ := peek_spec st2
            rw [hp] at hp1 hp2 hp3
            obtain ⟨hr2, ho2⟩ := get_true_cons (hic.2 ▸ hg2)
            refine ⟨'\\' :: '*' :: d3, ?_, ?_⟩
            · rw [hr1, hr2, ← hp2, hr3]
              simp
            · rw [ho3, hp3, ho2, ho1]
              simp
        · rw [if_neg hic] at h
          by_cases hn : c2 = none
          · rw [if_pos hn] at h
            cases h
          · rw [if_neg hn] at h
            obtain ⟨d2, hr2a, ho2a⟩ := ih st2 st' h
            rcases c2 with _ | ch2
            · exact absurd rfl hn
            obtain ⟨hr2, ho2⟩ := get_true_cons hg2
            refine ⟨'\\' :: ch2 :: d2, ?_, ?_⟩
            · rw [hr1, hr2, hr2a]
              simp
            · rw [ho2a, ho2, ho1]
              simp
      · rw [if_neg hb] at h
        simp only at h
        by_cases hic : ic ∧ c = some '*'
        · rw [if_pos hic] at h
          rcases hp : peek st1 with ⟨p, st3⟩
          rw [hp] at h
          simp only at h
          by_cases hps : p = some '/'
          · rw [if_pos hps] at h
            cases h
          · rw [if_neg hps] at h
            obtain ⟨d3, hr3, ho3⟩ := ih st3 st' h
            obtain ⟨hp1, hp2, hp3⟩ := peek_spec st1
            rw [hp] at hp1 hp2 hp3
            obtain ⟨hr1, ho1⟩ := get_true_cons (hic.2 ▸ hg)
            refine ⟨'*' :: d3, ?_, ?_⟩
            · rw [hr1, ← hp2, hr3]
              simp
            · rw [ho3, hp3, ho1]
              simp
        · rw [if_neg hic] at h
          by_cases hn : c = none
          · rw [if_pos hn] at h
            cases h
          · rw [if_neg hn] at h
            obtain ⟨d1, hr1a, ho1a⟩ := ih st1 st' h
            rcases c with _ | ch
            · exact absurd rfl hn
            obtain ⟨hr1, ho1⟩ := get_true_cons hg
            refine ⟨ch :: d1, ?_, ?_⟩
            · rw [hr1, hr1a]
              simp
            · rw [ho1a, ho1]
              simp

theorem regexpLoop_consumes (ic : Bool) (was : Nat) :
    ∀ fuel (st st' : St), regexpLoop ic was fuel st = Res.ok st' →
      ∃ d, rem st = d ++ rem st' ∧ st'.out = st.out ++ d := by
  intro fuel
  induction fuel with
  | zero =>
    intro st st' h
    simp [regexpLoop] at h
  | succ fuel ih =>
    intro st st' h
    rcases hg : get true st with ⟨c, st1⟩
    simp only [regexpLoop, hg] at h
    by_cases hbr : c = some '['
    · rw [if_pos hbr] at h
      subst hbr
      obtain ⟨hr1, ho1⟩ := get_true_cons hg
      rcases hc : classLoop ic fuel st1 with st2 | e | _ <;> rw [hc] at h
      · obtain ⟨d2, hr2, ho2⟩ := classLoop_consumes ic fuel st1 st2 hc
        obtain ⟨d3, hr3, ho3⟩ := ih st2 st' h
        refine ⟨'[' :: (d2 ++ d3), ?_, ?_⟩
        · rw [hr1, hr2, hr3]
          simp
        · rw [ho3, ho2, ho1]
          simp
      · cases h
      · cases h
    · rw [if_neg hbr] at h
      by_cases hsl : c = some '/'
      · rw [if_pos hsl] at h
        subst hsl
        obtain ⟨hr1, ho1⟩ := get_true_cons hg
        rcases hicb : ic with _ | _
        · subst hicb
          simp only [Bool.false_eq_true, if_neg] at h
          obtain rfl : st1 = st' := by
            simp only [if_neg (by simp : ¬False)] at h
            cases h
            rfl
          exact ⟨['/'], by simpa using hr1, ho1⟩
        · subst hicb
          rcases hp : peek st1 with ⟨p, st3⟩
          simp only [if_pos (by trivial : True), hp] at h
          obtain ⟨hp1, hp2, hp3⟩ := peek_spec st1
          rw [hp] at hp1 hp2 hp3
          by_cases hps : p = some '/' ∨ p = some '*'
          · rw [if_pos hps] at h
            cases h
          · rw [if_neg hps] at h
            obtain rfl : st3 = st' := by cases h; rfl
            refine ⟨['/'], ?_, ?_⟩
            · rw [hr1, ← hp2]
              rfl
            · rw [hp3, ho1]
      · rw [if_neg hsl] at h
        by_cases hb : c = some '\\'
        · rw [if_pos hb] at h
          subst hb
          obtain ⟨hr1, ho1⟩ := get_true_cons hg
          rcases hg2 : get true st1 with ⟨c2, st2⟩
          rw [hg2] at h
          simp only at h
          by_cases hic : ic ∧ c2 = some '*'
          · rw [if_pos hic] at h
            rcases hp : peek st2 with ⟨p, st3⟩
            rw [hp] at h
            simp only at h
            by_cases hps : p = some '/'
            · rw [if_pos hps] at h
              cases h
            · rw [if_neg hps] at h
              obtain ⟨d3, hr3, ho3⟩ := ih st3 st' h
              obtain ⟨hp1, hp2, hp3⟩ := peek_spec st2
              rw [hp] at hp1 hp2 hp3
              obtain ⟨hr2, ho2⟩ := get_true_cons (hic.2 ▸ hg2)
              refine ⟨'\\' :: '*' :: d3, ?_, ?_⟩
              · rw [hr1, hr2, ← hp2, hr3]
                simp
              · rw [ho3, hp3, ho2, ho1]
                simp
          · rw [if_neg hic] at h
            by_cases hn : c2 = none
            · rw [if_pos hn] at h
              cases h
            · rw [if_neg hn] at h
              obtain ⟨d2, hr2a, ho2a⟩ := ih st2 st' h
              rcases c2 with _ | ch2
              · exact absurd rfl hn
              obtain ⟨hr2, ho2⟩ := get_true_cons hg2
              refine ⟨'\\' :: ch2 :: d2, ?_, ?_⟩
              · rw [hr1, hr2, hr2a]
                simp
              · rw [ho2a, ho2, ho1]
                simp
        · rw [if_neg hb] at h
          simp only at h
          by_cases hic : ic ∧ c = some '*'
          · rw [if_pos hic] at h
            rcases hp : peek st1 with ⟨p, st3⟩
            rw [hp] at h
            simp only at h
            by_cases hps : p = some '/'
            · rw [if_pos hps] at h
              cases h
            · rw [if_neg hps] at h
              obtain ⟨d3, hr3, ho3⟩ := ih st3 st' h
              obtain ⟨hp1, hp2, hp3⟩ := peek_spec st1
              rw [hp] at hp1 hp2 hp3
              obtain ⟨hr1, ho1⟩ := get_true_cons (hic.2 ▸ hg)
              refine ⟨'*' :: d3, ?_, ?_⟩
              · rw [hr1, ← hp2, hr3]
                simp
              · rw [ho3, hp3, ho1]
                simp
          · rw [if_neg hic] at h
            by_cases hn : c = none
            · rw [if_pos hn] at h
              cases h
            · rw [if_neg hn] at h
              obtain ⟨d1, hr1a, ho1a⟩ := ih st1 st' h
              rcases c with _ | ch
              · exact absurd rfl hn
              obtain ⟨hr1, ho1⟩ := get_true_cons hg
              refine ⟨ch :: d1, ?_, ?_⟩
              · rw [hr1, hr1a]
                simp
              · rw [ho1a, ho1]
                simp


theorem string_consumes {q : Char} {ic : Bool} {fuel : Nat} {st st' : St}
    (h : string q ic fuel st = Res.ok st') :
    ∃ d, rem st = d ++ rem st' ∧ st'.out = st.out ++ d :=
  stringLoop_consumes q ic st.line_nr1 fuel st st' h

theorem regexp_consumes {ic : Bool} {fuel : Nat} {st st' : St}
    (h : regexp ic fuel st = Res.ok st') :
    ∃ d, rem st = d ++ rem st' ∧ st'.out = st.out ++ d :=
  regexpLoop_consumes ic st.line_nr1 fuel st st' h

theorem consume_step {st st1 st' : St} {ch : Char} {d : List Char}
    (hg : get true st = (some ch, st1))
    (hr : rem st1 = d ++ rem st') (ho : st'.out = st1.out ++ d) :
    ∃ d2, rem st = d2 ++ rem st' ∧ st'.out = st.out ++ d2 := by
  obtain ⟨hr1, ho1⟩ := get_true_cons hg
  refine ⟨ch :: d, by rw [hr1, hr]; simp, by rw [ho, ho1]; simp⟩

theorem peek_eq {st : St} {p : Option Char} {st1 : St} (hp : peek st = (p, st1)) :
    rem st1 = rem st ∧ st1.out = st.out := by
  obtain ⟨_, h2, h3⟩ := peek_spec st
  rw [hp] at h2 h3
  exact ⟨h2, h3⟩

theorem conditionLoop_consumes :
    ∀ fuel (left : Option Char) (paren : Int) (st st' : St),
      conditionLoop left paren fuel st = Res.ok st' →
      ∃ d, rem st = d ++ rem st' ∧ st'.out = st.out ++ d := by
  intro fuel
  induction fuel with
  | zero =>
    intro left paren st st' h
    simp [conditionLoop] at h
  | succ fuel ih =>
    intro left paren st st' h
    rcases hg : get true st with ⟨c, st1⟩
    simp only [conditionLoop, hg] at h
    split at h
    · obtain ⟨d1, hr1, ho1⟩ := ih _ _ _ _ h
      exact consume_step hg hr1 ho1
    · obtain ⟨d1, hr1, ho1⟩ := ih _ _ _ _ h
      exact consume_step hg hr1 ho1
    · obtain ⟨d1, hr1, ho1⟩ := ih _ _ _ _ h
      exact consume_step hg hr1 ho1
    · split at h
      · obtain rfl : st1 = st' := by cases h; rfl
        obtain ⟨hr, ho⟩ := get_true_cons hg
        exact ⟨[')'], by simpa using hr, ho⟩
      · obtain ⟨d1, hr1, ho1⟩ := ih _ _ _ _ h
        exact consume_step hg hr1 ho1
    · split at h
      · obtain rfl : st1 = st' := by cases h; rfl
        obtain ⟨hr, ho⟩ := get_true_cons hg
        exact ⟨['\x7d'], by simpa using hr, ho⟩
      · obtain ⟨d1, hr1, ho1⟩ := ih _ _ _ _ h
        exact consume_step hg hr1 ho1
    · split at h
      · obtain rfl : st1 = st' := by cases h; rfl
        obtain ⟨hr, ho⟩ := get_true_cons hg
        exact ⟨[']'], by simpa using hr, ho⟩
      · obtain ⟨d1, hr1, ho1⟩ := ih _ _ _ _ h
        exact consume_step hg hr1 ho1
    · cases h
    · split at h
      · rename_i st2 heq
        obtain ⟨d2, hr2, ho2⟩ := string_consumes heq
        obtain ⟨d3, hr3, ho3⟩ := ih _ _ _ _ h
        refine consume_step hg (d := d2 ++ d3) ?_ ?_
        · rw [hr2, hr3]
          simp
        · rw [ho3, ho2]
          simp
      · rename_i e heq hne
        exact absurd h (hne st')
    · split at h
      · rename_i st2 heq
        obtain ⟨d2, hr2, ho2⟩ := string_consumes heq
        obtain ⟨d3, hr3, ho3⟩ := ih _ _ _ _ h
        refine consume_step hg (d := d2 ++ d3) ?_ ?_
        · rw [hr2, hr3]
          simp
        · rw [ho3, ho2]
          simp
      · rename_i e heq hne
        exact absurd h (hne st')
    · split at h
      · rename_i st2 heq
        obtain ⟨d2, hr2, ho2⟩ := string_consumes heq
        obtain ⟨d3, hr3, ho3⟩ := ih _ _ _ _ h
        refine consume_step hg (d := d2 ++ d3) ?_ ?_
        · rw [hr2, hr3]
          simp
        · rw [ho3, ho2]
          simp
      · rename_i e heq hne
        exact absurd h (hne st')
    · rcases hp : peek st1 with ⟨p, st3⟩
      rw [hp] at h
      simp only at h
      obtain ⟨hpr, hpo⟩ := peek_eq hp
      by_cases hps : p = some '/' ∨ p = some '*'
      · rw [if_pos hps] at h
        cases h
      · rw [if_neg hps] at h
        rcases hpre : pre_regexp left with _ | _
        · rw [hpre] at h
          simp only [Bool.false_eq_true, if_neg] at h
          obtain ⟨d3, hr3, ho3⟩ := ih _ _ _ _ h
          refine consume_step hg (d := d3) ?_ ?_
          · rw [hpr] at hr3
            exact hr3
          · rw [hpo] at ho3
            exact ho3
        · rw [hpre] at h
          simp only [if_pos] at h
          split at h
          · rename_i st4 heq
            obtain ⟨d4, hr4, ho4⟩ := regexp_consumes heq
            obtain ⟨d5, hr5, ho5⟩ := ih _ _ _ _ h
            refine consume_step hg (d := d4 ++ d5) ?_ ?_
            · rw [hpr] at hr4
              rw [hr4, hr5]
              simp
            · rw [ho5, ho4, hpo]
              simp
          · rename_i e heq hne
            exact absurd h (hne st')
    · rcases hp : peek st1 with ⟨p, st3⟩
      rw [hp] at h
      simp only at h
      obtain ⟨hpr, hpo⟩ := peek_eq hp
      by_cases hps : p = some '/'
      · rw [if_pos hps] at h
        cases h
      · rw [if_neg hps] at h
        obtain ⟨d3, hr3, ho3⟩ := ih _ _ _ _ h
        refine consume_step hg (d := d3) ?_ ?_
        · rw [hpr] at hr3
          exact hr3
        · rw [hpo] at ho3
          exact ho3
    · obtain ⟨d1, hr1, ho1⟩ := ih _ _ _ _ h
      exact consume_step hg hr1 ho1


theorem get_false_rem (st : St) :
    rem st = optList (get false st).1 ++ rem (get false st).2 ∧
    (get false st).2.out = st.out := by
  obtain ⟨g1, g2, g3⟩ := get_spec false st
  constructor
  · rcases hrem : rem st with _ | ⟨a, rest⟩
    · rw [hrem] at g1 g2
      simp only [List.head?_nil, List.tail_nil] at g1 g2
      rw [g1, g2]
      rfl
    · rw [hrem] at g1 g2
      simp only [List.head?_cons, List.tail_cons] at g1 g2
      rw [g1, g2]
      rfl
  · simpa using g3

theorem get_true_rem (st : St) :
    rem st = optList (get true st).1 ++ rem (get true st).2 ∧
    (get true st).2.out = st.out ++ optList (get true st).1 := by
  obtain ⟨g1, g2, g3⟩ := get_spec true st
  constructor
  · rcases hrem : rem st with _ | ⟨a, rest⟩
    · rw [hrem] at g1 g2
      simp only [List.head?_nil, List.tail_nil] at g1 g2
      rw [g1, g2]
      rfl
    · rw [hrem] at g1 g2
      simp only [List.head?_cons, List.tail_cons] at g1 g2
      rw [g1, g2]
      rfl
  · simpa using g3

theorem spaceSkip_consumes :
    ∀ fuel (st st' : St), spaceSkip fuel st = Res.ok st' →
      ∃ d, rem st = d ++ rem st' ∧ st'.out = st.out := by
  intro fuel
  induction fuel with
  | zero =>
    intro st st' h
    simp [spaceSkip] at h
  | succ fuel ih =>
    intro st st' h
    rcases hp : peek st with ⟨p, st1⟩
    simp only [spaceSkip, hp] at h
    obtain ⟨hpr, hpo⟩ := peek_eq hp
    by_cases hsp : p = some ' '
    · rw [if_pos hsp] at h
      rcases hg : get false st1 with ⟨c1, st2⟩
      rw [hg] at h
      simp only at h
      obtain ⟨gr, go⟩ := get_false_rem st1
      rw [hg] at gr go
      simp only at gr go
      obtain ⟨d1, hr1, ho1⟩ := ih st2 st' h
      refine ⟨optList c1 ++ d1, ?_, ?_⟩
      · rw [← hpr, gr, hr1]
        simp
      · rw [ho1, go, hpo]
    · rw [if_neg hsp] at h
      obtain rfl : st1 = st' := by cases h; rfl
      exact ⟨[], by rw [hpr]; rfl, hpo⟩

theorem starLoop_consumes (paren : Int) :
    ∀ fuel (st : St) (b : Bool) (st' : St),
      starLoop paren fuel st = Res.ok (b, st') →
      ∃ k, rem st = List.replicate k '*' ++ (if b then ['*', '/'] else []) ++ rem st' ∧
        st'.out = st.out ++ List.replicate k '*' := by
  intro fuel
  induction fuel with
  | zero =>
    intro st b st' h
    simp [starLoop] at h
  | succ fuel ih =>
    intro st b st' h
    rcases hp : peek st with ⟨p, st1⟩
    simp only [starLoop, hp] at h
    obtain ⟨hpr, hpo⟩ := peek_eq hp
    have hphead : p = (rem st).head? := by
      have := (peek_spec st).1
      rw [hp] at this
      exact this
    by_cases hs : p = some '*'
    · rw [if_pos hs] at h
      rcases hg : get false st1 with ⟨c1, st2⟩
      rw [hg] at h
      simp only at h
      have hc1 : c1 = some '*' := by
        have := (get_spec false st1).1
        rw [hg] at this
        simp only at this
        rw [this, hpr, ← hphead, hs]
      obtain ⟨hr2, ho2⟩ := get_false_cons (hc1 ▸ hg)
      rcases hp2 : peek st2 with ⟨p2, st3⟩
      rw [hp2] at h
      simp only at h
      obtain ⟨hpr2, hpo2⟩ := peek_eq hp2
      have hphead2 : p2 = (rem st2).head? := by
        have := (peek_spec st2).1
        rw [hp2] at this
        exact this
      by_cases hs2 : p2 = some '/'
      · rw [if_pos hs2] at h
        rcases hg2 : get false st3 with ⟨c2, st4⟩
        rw [hg2] at h
        simp only at h
        have hc2 : c2 = some '/' := by
          have := (get_spec false st3).1
          rw [hg2] at this
          simp only at this
          rw [this, hpr2, ← hphead2, hs2]
        obtain ⟨hr4, ho4⟩ := get_false_cons (hc2 ▸ hg2)
        by_cases hpar : paren > 0
        · rw [if_pos hpar] at h
          cases h
        · rw [if_neg hpar] at h
          obtain ⟨rfl, rfl⟩ : b = true ∧ st4 = st' := by cases h; exact ⟨rfl, rfl⟩
          refine ⟨0, ?_, ?_⟩
          · rw [← hpr, hr2, ← hpr2, hr4]
            simp
          · rw [ho4, hpo2, ho2, hpo]
            simp
      · rw [if_neg hs2] at h
        obtain ⟨k, hrk, hok⟩ := ih (emit ['*'] st3) b st' h
        rw [rem_emit] at hrk
        rw [out_emit] at hok
        refine ⟨k + 1, ?_, ?_⟩
        · rw [← hpr, hr2, ← hpr2, hrk]
          simp [List.replicate_succ]
        · rw [hok, hpo2, ho2, hpo]
          simp [List.replicate_succ]
    · rw [if_neg hs] at h
      obtain ⟨rfl, rfl⟩ : b = false ∧ st1 = st' := by cases h; exact ⟨rfl, rfl⟩
      refine ⟨0, ?_, ?_⟩
      · rw [← hpr]
        rfl
      · rw [hpo]
        simp

theorem closer_comp {stA stB st' : St} {dA oA : List Char}
    (hr : rem stA = dA ++ rem stB) (ho : stB.out = stA.out ++ oA)
    (h : ∃ pre o, rem stB = pre ++ ['*', '/'] ++ rem st' ∧ st'.out = stB.out ++ o) :
    ∃ pre o, rem stA = pre ++ ['*', '/'] ++ rem st' ∧ st'.out = stA.out ++ o := by
  obtain ⟨pre, o, h1, h2⟩ := h
  exact ⟨dA ++ pre, oA ++ o, by rw [hr, h1]; simp, by rw [h2, ho]; simp⟩

theorem closer_step {stA stB st' : St} {ch : Char}
    (hr : rem stA = ch :: rem stB) (ho : stB.out = stA.out ++ [ch])
    (h : ∃ pre o, rem stB = pre ++ ['*', '/'] ++ rem st' ∧ st'.out = stB.out ++ o) :
    ∃ pre o, rem stA = pre ++ ['*', '/'] ++ rem st' ∧ st'.out = stA.out ++ o :=
  @closer_comp stA stB st' [ch] [ch] hr ho h

theorem closer_peek {stA stB st' : St}
    (hr : rem stB = rem stA) (ho : stB.out = stA.out)
    (h : ∃ pre o, rem stB = pre ++ ['*', '/'] ++ rem st' ∧ st'.out = stB.out ++ o) :
    ∃ pre o, rem stA = pre ++ ['*', '/'] ++ rem st' ∧ st'.out = stA.out ++ o := by
  obtain ⟨pre, o, h1, h2⟩ := h
  exact ⟨pre, o, by rw [← hr, h1], by rw [h2, ho]⟩

theorem stuffLoop_closer :
    ∀ fuel (left : Option Char) (paren : Int) (st st' : St),
      stuffLoop left paren fuel st = Res.ok st' →
      ∃ pre o, rem st = pre ++ ['*', '/'] ++ rem st' ∧ st'.out = st.out ++ o := by
  intro fuel
  induction fuel with
  | zero =>
    intro left paren st st' h
    simp [stuffLoop] at h
  | succ fuel ih =>
    intro left paren st st' h
    simp only [stuffLoop] at h
    split at h
    · cases h
    · cases h
    · rename_i st1 heq
      obtain ⟨k, hrk, hok⟩ := starLoop_consumes paren (fuel + 1) st true st1 heq
      have hst1 : st1 = st' := by cases h; rfl
      rw [← hst1]
      exact ⟨List.replicate k '*', List.replicate k '*', by simpa using hrk, hok⟩
    · rename_i st1 heq
      obtain ⟨k, hrk, hok⟩ := starLoop_consumes paren (fuel + 1) st false st1 heq
      have hstar : rem st = List.replicate k '*' ++ rem st1 := by simpa using hrk
      rcases hg : get true st1 with ⟨c, st2⟩
      rw [hg] at h
      simp only at h
      split at h
      · cases h
      · split at h
        · rename_i st3 heq2
          obtain ⟨d3, hr3, ho3⟩ := string_consumes heq2
          obtain ⟨hr2, ho2⟩ := get_true_cons hg
          exact closer_comp hstar hok (closer_step hr2 ho2
            (closer_comp hr3 ho3 (ih _ _ _ _ h)))
        · rename_i e heq2 hne
          exact absurd h (hne st')
      · split at h
        · rename_i st3 heq2
          obtain ⟨d3, hr3, ho3⟩ := string_consumes heq2
          obtain ⟨hr2, ho2⟩ := get_true_cons hg
          exact closer_comp hstar hok (closer_step hr2 ho2
            (closer_comp hr3 ho3 (ih _ _ _ _ h)))
        · rename_i e heq2 hne
          exact absurd h (hne st')
      · split at h
        · rename_i st3 heq2
          obtain ⟨d3, hr3, ho3⟩ := string_consumes heq2
          obtain ⟨hr2, ho2⟩ := get_true_cons hg
          exact closer_comp hstar hok (closer_step hr2 ho2
            (closer_comp hr3 ho3 (ih _ _ _ _ h)))
        · rename_i e heq2 hne
          exact absurd h (hne st')
      · obtain ⟨hr2, ho2⟩ := get_true_cons hg
        exact closer_comp hstar hok (closer_step hr2 ho2 (ih _ _ _ _ h))
      · obtain ⟨hr2, ho2⟩ := get_true_cons hg
        exact closer_comp hstar hok (closer_step hr2 ho2 (ih _ _ _ _ h))
      · obtain ⟨hr2, ho2⟩ := get_true_cons hg
        exact closer_comp hstar hok (closer_step hr2 ho2 (ih _ _ _ _ h))
      · split at h
        · cases h
        · obtain ⟨hr2, ho2⟩ := get_true_cons hg
          exact closer_comp hstar hok (closer_step hr2 ho2 (ih _ _ _ _ h))
      · split at h
        · cases h
        · obtain ⟨hr2, ho2⟩ := get_true_cons hg
          exact closer_comp hstar hok (closer_step hr2 ho2 (ih _ _ _ _ h))
      · split at h
        · cases h
        · obtain ⟨hr2, ho2⟩ := get_true_cons hg
          exact closer_comp hstar hok (closer_step hr2 ho2 (ih _ _ _ _ h))
      · rcases hp : peek st2 with ⟨p, st3⟩
        rw [hp] at h
        simp only at h
        obtain ⟨hpr, hpo⟩ := peek_eq hp
        obtain ⟨hr2, ho2⟩ := get_true_cons hg
        by_cases hps : p = some '/' ∨ p = some '*'
        · rw [if_pos hps] at h
          cases h
        · rw [if_neg hps] at h
          rcases hpre : pre_regexp left with _ | _
          · rw [hpre] at h
            simp only [Bool.false_eq_true, if_neg] at h
            exact closer_comp hstar hok (closer_step hr2 ho2
              (closer_peek hpr hpo (ih _ _ _ _ h)))
          · rw [hpre] at h
            simp only [if_pos] at h
            split at h
            · rename_i st4 heq2
              obtain ⟨d4, hr4, ho4⟩ := regexp_consumes heq2
              exact closer_comp hstar hok (closer_step hr2 ho2
                (closer_peek hpr hpo
                  (closer_comp hr4 ho4 (ih _ _ _ _ h))))
            · rename_i e heq2 hne
              exact absurd h (hne st')
      · obtain ⟨hr2, ho2⟩ := get_true_cons hg
        exact closer_comp hstar hok (closer_step hr2 ho2 (ih _ _ _ _ h))

theorem stuff_closer {fuel : Nat} {st st' : St} (h : stuff fuel st = Res.ok st') :
    ∃ pre o, rem st = pre ++ ['*', '/'] ++ rem st' ∧ st'.out = st.out ++ o := by
  unfold stuff at h
  rcases hs : spaceSkip fuel st with st1 | e | _ <;> simp only [hs] at h
  · obtain ⟨d, hr, ho⟩ := spaceSkip_consumes fuel st st1 hs
    have ho2 : st1.out = st.out ++ ([] : List Char) := by simpa using ho
    exact closer_comp hr ho2 (stuffLoop_closer fuel _ 0 st1 st' h)
  · cases h
  · cases h

theorem echoCommentLoop_consumes :
    ∀ fuel (c : Option Char) (st st' : St),
      echoCommentLoop c fuel st = Res.ok st' →
      ∃ d, rem st = d ++ rem st' ∧ st'.out = st.out ++ d := by
  intro fuel
  induction fuel with
  | zero =>
    intro c st st' h
    simp [echoCommentLoop] at h
  | succ fuel ih =>
    intro c st st' h
    rcases c with _ | ch
    · simp only [echoCommentLoop] at h
      cases h
    · simp only [echoCommentLoop] at h
      by_cases h1 : ch = '/'
      · rw [if_pos h1] at h
        rcases hg : get true st with ⟨c2, st1⟩
        rw [hg] at h
        simp only at h
        by_cases h2 : c2 = some '*'
        · rw [if_pos h2] at h
          cases h
        · rw [if_neg h2] at h
          obtain ⟨d1, hr1, ho1⟩ := ih c2 st1 st' h
          obtain ⟨gr, go⟩ := get_true_rem st
          rw [hg] at gr go
          simp only at gr go
          refine ⟨optList c2 ++ d1, ?_, ?_⟩
          · rw [gr, hr1]
            simp
          · rw [ho1, go]
            simp
      · rw [if_neg h1] at h
        by_cases h3 : ch = '*'
        · rw [if_pos h3] at h
          rcases hg : get true st with ⟨c2, st1⟩
          rw [hg] at h
          simp only at h
          by_cases h4 : c2 = some '/'
          · rw [if_pos h4] at h
            obtain rfl : st1 = st' := by cases h; rfl
            subst h4
            obtain ⟨hr, ho⟩ := get_true_cons hg
            exact ⟨['/'], by simpa using hr, ho⟩
          · rw [if_neg h4] at h
            obtain ⟨d1, hr1, ho1⟩ := ih c2 st1 st' h
            obtain ⟨gr, go⟩ := get_true_rem st
            rw [hg] at gr go
            simp only at gr go
            refine ⟨optList c2 ++ d1, ?_, ?_⟩
            · rw [gr, hr1]
              simp
            · rw [ho1, go]
              simp
        · rw [if_neg h3] at h
          rcases hg : get true st with ⟨c2, st1⟩
          rw [hg] at h
          simp only at h
          obtain ⟨d1, hr1, ho1⟩ := ih c2 st1 st' h
          obtain ⟨gr, go⟩ := get_true_rem st
          rw [hg] at gr go
          simp only at gr go
          refine ⟨optList c2 ++ d1, ?_, ?_⟩
          · rw [gr, hr1]
            simp
          · rw [ho1, go]
            simp


theorem condition_consumes {fuel : Nat} {st st' : St}
    (h : condition fuel st = Res.ok st') :
    ∃ d, rem st = d ++ rem st' ∧ st'.out = st.out ++ d :=
  conditionLoop_consumes fuel (some '\x7b') 0 st st' h

theorem expand_shapes {methods : List (Option (List Char))} {tag_nr fuel : Nat}
    {st st' : St} (h : expand methods tag_nr fuel st = Res.ok st') :
    ∃ condOut stuffOut,
      st'.out = st.out ++
        (if (peek st).1 = some '(' then "if ".data ++ condOut ++ [' '] else []) ++
        ['\x7b'] ++
        (match methods.getD tag_nr none with
         | some m => m ++ ['('] ++ stuffOut ++ [')', ';', '\x7d']
         | none => stuffOut ++ ['\x7d']) := by
  unfold expand at h
  rcases hp : peek st with ⟨c, st1⟩
  rw [hp] at h
  simp only at h
  obtain ⟨hpr, hpo⟩ := peek_eq hp
  dsimp only
  by_cases hc : c = some '('
  · rw [if_pos hc] at h
    rcases hcond : condition fuel (emit "if ".data st1) with st2 | e | _ <;>
        rw [hcond] at h <;> simp only at h
    · obtain ⟨d2, _, ho2⟩ := condition_consumes hcond
      rw [out_emit] at ho2
      rcases hm : methods.getD tag_nr none with _ | m <;> rw [hm] at h <;> simp only at h
      · rcases hstuff : stuff fuel (emit ['\x7b'] (emit [' '] st2)) with st4 | e | _ <;>
            rw [hstuff] at h <;> simp only at h
        · obtain ⟨_, o, _, ho4⟩ := stuff_closer hstuff
          obtain rfl : emit ['\x7d'] st4 = st' := by cases h; rfl
          refine ⟨d2, o, ?_⟩
          rw [out_emit, ho4, out_emit, out_emit, ho2, hpo]
          simp [hc]
        · cases h
        · cases h
      · rcases hstuff : stuff fuel (emit (m ++ ['(']) (emit ['\x7b'] (emit [' '] st2))) with st4 | e | _ <;>
            rw [hstuff] at h <;> simp only at h
        · obtain ⟨_, o, _, ho4⟩ := stuff_closer hstuff
          obtain rfl : emit [')', ';', '\x7d'] st4 = st' := by cases h; rfl
          refine ⟨d2, o, ?_⟩
          rw [out_emit, ho4, out_emit, out_emit, out_emit, ho2, hpo]
          simp [hc]
        · cases h
        · cases h
    · cases h
    · cases h
  · rw [if_neg hc] at h
    simp only at h
    rcases hm : methods.getD tag_nr none with _ | m <;> rw [hm] at h <;> simp only at h
    · rcases hstuff : stuff fuel (emit ['\x7b'] st1) with st4 | e | _ <;>
          rw [hstuff] at h <;> simp only at h
      · obtain ⟨_, o, _, ho4⟩ := stuff_closer hstuff
        obtain rfl : emit ['\x7d'] st4 = st' := by cases h; rfl
        refine ⟨[], o, ?_⟩
        rw [out_emit, ho4, out_emit, hpo]
        simp [hc]
      · cases h
      · cases h
    · rcases hstuff : stuff fuel (emit (m ++ ['(']) (emit ['\x7b'] st1)) with st4 | e | _ <;>
          rw [hstuff] at h <;> simp only at h
      · obtain ⟨_, o, _, ho4⟩ := stuff_closer hstuff
        obtain rfl : emit [')', ';', '\x7d'] st4 = st' := by cases h; rfl
        refine ⟨[], o, ?_⟩
        rw [out_emit, ho4, out_emit, out_emit, hpo]
        simp [hc]
      · cases h
      · cases h


/-- C1: for every recognized tag occurrence, the expansion emitted by
`expand` has exactly one of four shapes, determined by whether the next
input character is `(` (the guard) and whether the tag declaration carries
a bound method: `{<stuff>}`, `if (<cond>) {<stuff>}`, `{<method>(<stuff>);}`
or `if (<cond>) {<method>(<stuff>);}`; and tag `alarm:alert` on input
`/*alarm(level>5) "loud"*/` produces exactly `if (level>5) {alert("loud");}`
(plus the synthetic final line break of the stream). -/
theorem C1_expansion_four_shapes :
    (∀ (methods : List (Option (List Char))) (tag_nr fuel : Nat) (st st' : St),
      expand methods tag_nr fuel st = Res.ok st' →
      ∃ condOut stuffOut,
        st'.out = st.out ++
          (if (peek st).1 = some '(' then "if ".data ++ condOut ++ [' '] else []) ++
          ['\x7b'] ++
          (match methods.getD tag_nr none with
           | some m => m ++ ['('] ++ stuffOut ++ [')', ';', '\x7d']
           | none => stuffOut ++ ['\x7d'])) ∧
    jsdev 64 (JSource.str "/*alarm(level>5) \"loud\"*/") ["alarm:alert"]
        JComments.absent =
      Res.ok "if (level>5) \x7balert(\"loud\");\x7d\n" :=
  ⟨fun _ _ _ _ _ h => expand_shapes h, by rfl⟩

/-- Witness for C1: the quantified part applied at a concrete guarded
bound-method expansion. -/
theorem C1_expansion_four_shapes_witness :
    ∃ condOut stuffOut,
      (St.mk [['(', 'x', ')', ' ', 'y', '*', '/']] 1 (some []) none
        ['i', 'f', ' ', '(', 'x', ')', ' ', '\x7b', 'f', '(', 'y', ')', ';', '\x7d']).out =
      (St.mk [['(', 'x', ')', ' ', 'y', '*', '/']] 0 none none []).out ++
        (if (peek (St.mk [['(', 'x', ')', ' ', 'y', '*', '/']] 0 none none [])).1 = some '('
         then "if ".data ++ condOut ++ [' '] else []) ++
        ['\x7b'] ++
        (match ([some ['f']] : List (Option (List Char))).getD 0 none with
         | some m => m ++ ['('] ++ stuffOut ++ [')', ';', '\x7d']
         | none => stuffOut ++ ['\x7d']) :=
  C1_expansion_four_shapes.1 [some ['f']] 0 32
    (St.mk [['(', 'x', ')', ' ', 'y', '*', '/']] 0 none none [])
    (St.mk [['(', 'x', ')', ' ', 'y', '*', '/']] 1 (some []) none
      ['i', 'f', ' ', '(', 'x', ')', ' ', '\x7b', 'f', '(', 'y', ')', ';', '\x7d'])
    (by rfl)


/-! ### Tag-configuration processing -/

theorem errMsg_badtag (m : String) : errMsg 0 m = "JSDev: bad tag " ++ m := by
  unfold errMsg
  rw [if_pos rfl]
  congr 1

theorem checkTags_err :
    ∀ (pre : List (List Char)) (bad : List Char) (post : List (List Char)),
      (∀ t ∈ pre, (tagMatch t).isSome) → tagMatch bad = none →
      checkTags (pre ++ bad :: post) = Res.err (errMsg 0 (String.mk bad)) := by
  intro pre
  induction pre with
  | nil =>
    intro bad post _ hbad
    simp [checkTags, hbad]
  | cons t rest ih =>
    intro bad post hpre hbad
    have ht : (tagMatch t).isSome := hpre t (by simp)
    rcases hm : tagMatch t with _ | ⟨name, meth⟩
    · rw [hm] at ht
      simp at ht
    · have hcons : (t :: rest) ++ bad :: post = t :: (rest ++ bad :: post) := rfl
      rw [hcons]
      simp only [checkTags, hm]
      rw [ih bad post (fun u hu => hpre u (by simp [hu])) hbad]

/-- The entry in the tags array after processing: a declaration with a
`:method` suffix is overwritten by its bare tag name, any other entry is
left as it was. -/
def stripTag (t : List Char) : List Char :=
  match tagMatch t with
  | some (name, some _) => name
  | _ => t

/-- The method bound to a declaration, if any. -/
def methodOf (t : List Char) : Option (List Char) :=
  match tagMatch t with
  | some (_, m) => m
  | none => none

theorem checkTags_ok :
    ∀ (tags : List (List Char)) (p : List (List Char) × List (Option (List Char))),
      checkTags tags = Res.ok p →
      p.1 = tags.map stripTag ∧ p.2 = tags.map methodOf := by
  intro tags
  induction tags with
  | nil =>
    intro p h
    simp only [checkTags] at h
    obtain rfl : ([], []) = p := by cases h; rfl
    simp
  | cons t rest ih =>
    intro p h
    simp only [checkTags] at h
    rcases hm : tagMatch t with _ | ⟨name, meth⟩ <;> rw [hm] at h
    · cases h
    · rcases hr : checkTags rest with pr | e | _ <;> rw [hr] at h <;> simp only at h
      · obtain ⟨hp1, hp2⟩ := ih pr hr
        obtain rfl : ((if meth.isSome then name else t) :: pr.1, meth :: pr.2) = p := by
          rcases pr with ⟨ts, ms⟩
          cases h
          rfl
        constructor
        · simp only [List.map_cons, ← hp1]
          rcases meth with _ | m
          · simp [stripTag, hm]
          · simp [stripTag, hm]
        · simp only [List.map_cons, ← hp2]
          simp [methodOf, hm]
      · cases h
      · cases h


/-- C8: a tag-declarations list containing an entry that fails the
`tag[:method]` pattern makes the conversion fail before any scanning of
the source (the same error results for every source and comments
argument), and the error message is "JSDev: bad tag " followed by the
offending declaration. -/
theorem C8_bad_tag_declaration_rejected :
    ∀ (fuel : Nat) (source : JSource) (comments : JComments)
      (pre : List String) (bad : String) (post : List String),
      (∀ t ∈ pre, (tagMatch t.data).isSome) → tagMatch bad.data = none →
      jsdev fuel source (pre ++ bad :: post) comments =
        Res.err ("JSDev: bad tag " ++ bad) := by
  intro fuel source comments pre bad post hpre hbad
  unfold jsdev
  have hmap : (pre ++ bad :: post).map String.data =
      pre.map String.data ++ bad.data :: post.map String.data := by simp
  rw [hmap, checkTags_err (pre.map String.data) bad.data (post.map String.data)
      (by intro t ht
          simp only [List.mem_map] at ht
          obtain ⟨u, hu, rfl⟩ := ht
          exact hpre u hu) hbad]
  show Res.err (errMsg 0 (String.mk bad.data)) = _
  have hmk : String.mk bad.data = bad := by cases bad; rfl
  rw [hmk, errMsg_badtag]

/-- Witness for C8: the declaration "log: console.log" (with a space) is
rejected with the "bad tag" marker, for a source it never scans. -/
theorem C8_bad_tag_declaration_rejected_witness :
    jsdev 5 (JSource.str "x") ([] ++ "log: console.log" :: []) JComments.absent =
      Res.err ("JSDev: bad tag " ++ "log: console.log") :=
  C8_bad_tag_declaration_rejected 5 (JSource.str "x") JComments.absent []
    "log: console.log" [] (by simp) (by rfl)

/-- C9: tag-configuration processing turns the caller-supplied tags array
into the array whose entry for a `tag:method` declaration is just `tag`
(the method moved to the separate methods table) while an entry without a
method suffix is left unchanged — the processed array is exactly the
entry-wise `stripTag` image, and a declaration with no `:method` suffix is
left fixed by `stripTag`. -/
theorem C9_tag_entries_overwritten :
    (∀ (tags : List (List Char)) (p : List (List Char) × List (Option (List Char))),
      checkTags tags = Res.ok p →
      p.1 = tags.map stripTag ∧ p.2 = tags.map methodOf) ∧
    (∀ (t name : List Char), tagMatch t = some (name, none) → stripTag t = t) :=
  ⟨checkTags_ok, fun t name h => by simp [stripTag, h]⟩

/-- Witness for C9: the declarations `log:console.log` and `debug`. -/
theorem C9_tag_entries_overwritten_witness :
    ((["log".data, "debug".data],
      [some "console.log".data, none]) :
        List (List Char) × List (Option (List Char))).1 =
      ["log:console.log".data, "debug".data].map stripTag ∧
    ((["log".data, "debug".data],
      [some "console.log".data, none]) :
        List (List Char) × List (Option (List Char))).2 =
      ["log:console.log".data, "debug".data].map methodOf :=
  C9_tag_entries_overwritten.1 ["log:console.log".data, "debug".data]
    (["log".data, "debug".data], [some "console.log".data, none]) (by rfl)


/-! ### C5: backslash escaping inside the string skipper -/

/-- C5 counterexample: the claim says a string whose only `*` before `/`
is backslash-escaped is not rejected, but `/*debug "a\*/b"*/` — whose
string literal contains only the escaped sequence `\*/` — is rejected
with the fatal close-comment error. -/
theorem C5_escaped_star_slash_rejected :
    jsdev 64 (JSource.str "/*debug \"a\\*/b\"*/") ["debug"] JComments.absent =
      Res.err "JSDev: 1 unexpected close comment in string." := by rfl

/-- C5 (amended): in the string skipper a backslash keeps the following
character from closing the literal — it is consumed and echoed with no
quote comparison — but the close-comment test still applies to it: while
skipping inside a comment, a `*` immediately followed by `/` raises the
fatal close-comment error whether the `*` is escaped (second and third
conjuncts' first) or not (third conjunct). -/
theorem C5_escape_consumes_but_close_comment_checked :
    (∀ (q : Char) (ic : Bool) (was fuel : Nat) (st : St) (d : Char),
      q ≠ '\\' →
      (get true st).1 = some '\\' →
      (get true (get true st).2).1 = some d →
      ¬(ic = true ∧ d = '*') →
      stringLoop q ic was (fuel + 1) st =
        stringLoop q ic was fuel (get true (get true st).2).2 ∧
      (get true (get true st).2).2.out = st.out ++ ['\\', d]) ∧
    (∀ (q : Char) (was fuel : Nat) (st : St),
      q ≠ '\\' →
      (get true st).1 = some '\\' →
      (get true (get true st).2).1 = some '*' →
      (peek (get true (get true st).2).2).1 = some '/' →
      stringLoop q true was (fuel + 1) st =
        Res.err (errMsg (peek (get true (get true st).2).2).2.line_nr1
          "unexpected close comment in string.")) ∧
    (∀ (q : Char) (was fuel : Nat) (st : St),
      q ≠ '*' →
      (get true st).1 = some '*' →
      (peek (get true st).2).1 = some '/' →
      stringLoop q true was (fuel + 1) st =
        Res.err (errMsg (peek (get true st).2).2.line_nr1
          "unexpected close comment in string.")) := by
  refine ⟨?_, ?_, ?_⟩
  · intro q ic was fuel st d hq h1 h2 hnic
    rcases hg : get true st with ⟨c1, st1⟩
    rw [hg] at h1 h2
    dsimp only at h1 h2
    subst h1
    rcases hg2 : get true st1 with ⟨c2, st2⟩
    rw [hg2] at h2
    dsimp only at h2
    subst h2
    constructor
    · simp [stringLoop, hg, hg2, hq.symm, hnic]
    · obtain ⟨_, ho1⟩ := get_true_cons hg
      obtain ⟨_, ho2⟩ := get_true_cons hg2
      rw [ho2, ho1]
      simp
  · intro q was fuel st hq h1 h2 h3
    rcases hg : get true st with ⟨c1, st1⟩
    rw [hg] at h1 h2 h3
    dsimp only at h1 h2 h3
    subst h1
    rcases hg2 : get true st1 with ⟨c2, st2⟩
    rw [hg2] at h2 h3
    dsimp only at h2 h3
    subst h2
    rcases hp : peek st2 with ⟨p, st3⟩
    rw [hp] at h3
    dsimp only at h3
    subst h3
    simp [stringLoop, hg, hg2, hp, hq.symm]
  · intro q was fuel st hq h1 h2
    rcases hg : get true st with ⟨c1, st1⟩
    rw [hg] at h1 h2
    dsimp only at h1 h2
    subst h1
    rcases hp : peek st1 with ⟨p, st3⟩
    rw [hp] at h2
    dsimp only at h2
    subst h2
    simp [stringLoop, hg, hp, hq.symm]


/-- Witness for C5: the amended theorem's escaped-close-comment conjunct
applied to a concrete string-literal body `\*/"`. -/
theorem C5_escape_consumes_but_close_comment_checked_witness :
    stringLoop '"' true 1 (5 + 1) (St.mk [] 1 (some ['\\', '*', '/', '"']) none []) =
      Res.err (errMsg (peek (get true (get true
          (St.mk [] 1 (some ['\\', '*', '/', '"']) none [])).2).2).2.line_nr1
        "unexpected close comment in string.") :=
  C5_escape_consumes_but_close_comment_checked.2.1 '"' 1 5
    (St.mk [] 1 (some ['\\', '*', '/', '"']) none []) (by decide) rfl rfl rfl


/-! ### C6: line numbers carried by skipper errors -/

theorem stringLoop_err (q : Char) (ic : Bool) (was : Nat) :
    ∀ fuel (st : St) (e : String), stringLoop q ic was fuel st = Res.err e →
      e = errMsg was "unterminated string literal." ∨
      ∃ n, e = errMsg n "unexpected close comment in string." := by
  intro fuel
  induction fuel with
  | zero =>
    intro st e h
    simp [stringLoop] at h
  | succ fuel ih =>
    intro st e h
    rcases hg : get true st with ⟨c, st1⟩
    simp only [stringLoop, hg] at h
    by_cases hq : c = some q
    · rw [if_pos hq] at h
      cases h
    · rw [if_neg hq] at h
      by_cases hb : c = some '\\'
      · rw [if_pos hb] at h
        rcases hg2 : get true st1 with ⟨c2, st2⟩
        rw [hg2] at h
        simp only at h
        by_cases hic : ic = true ∧ c2 = some '*'
        · rw [if_pos hic] at h
          rcases hp : peek st2 with ⟨p, st3⟩
          rw [hp] at h
          simp only at h
          by_cases hps : p = some '/'
          · rw [if_pos hps] at h
            refine Or.inr ⟨st3.line_nr1, ?_⟩
            cases h
            rfl
          · rw [if_neg hps] at h
            exact ih st3 e h
        · rw [if_neg hic] at h
          by_cases hn : c2 = none
          · rw [if_pos hn] at h
            exact Or.inl (by cases h; rfl)
          · rw [if_neg hn] at h
            exact ih st2 e h
      · rw [if_neg hb] at h
        simp only at h
        by_cases hic : ic = true ∧ c = some '*'
        · rw [if_pos hic] at h
          rcases hp : peek st1 with ⟨p, st3⟩
          rw [hp] at h
          simp only at h
          by_cases hps : p = some '/'
          · rw [if_pos hps] at h
            refine Or.inr ⟨st3.line_nr1, ?_⟩
            cases h
            rfl
          · rw [if_neg hps] at h
            exact ih st3 e h
        · rw [if_neg hic] at h
          by_cases hn : c = none
          · rw [if_pos hn] at h
            exact Or.inl (by cases h; rfl)
          · rw [if_neg hn] at h
            exact ih st1 e h

theorem classLoop_err (ic : Bool) :
    ∀ fuel (st : St) (e : String), classLoop ic fuel st = Res.err e →
      ∃ n, e = errMsg n "unterminated set in Regular Expression literal." ∨
        e = errMsg n "unexpected close comment in regexp." := by
  intro fuel
  induction fuel with
  | zero =>
    intro st e h
    simp [classLoop] at h
  | succ fuel ih =>
    intro st e h
    rcases hg : get true st with ⟨c, st1⟩
    simp only [classLoop, hg] at h
    by_cases hq : c = some ']'
    · rw [if_pos hq] at h
      cases h
    · rw [if_neg hq] at h
      by_cases hb : c = some '\\'
      · rw [if_pos hb] at h
        rcases hg2 : get true st1 with ⟨c2, st2⟩
        rw [hg2] at h
        simp only at h
        by_cases hic : ic = true ∧ c2 = some '*'
        · rw [if_pos hic] at h
          rcases hp : peek st2 with ⟨p, st3⟩
          rw [hp] at h
          simp only at h
          by_cases hps : p = some '/'
          · rw [if_pos hps] at h
            exact ⟨st3.line_nr1, Or.inr (by cases h; rfl)⟩
          · rw [if_neg hps] at h
            exact ih st3 e h
        · rw [if_neg hic] at h
          by_cases hn : c2 = none
          · rw [if_pos hn] at h
            exact ⟨st2.line_nr1, Or.inl (by cases h; rfl)⟩
          · rw [if_neg hn] at h
            exact ih st2 e h
      · rw [if_neg hb] at h
        simp only at h
        by_cases hic : ic = true ∧ c = some '*'
        · rw [if_pos hic] at h
          rcases hp : peek st1 with ⟨p, st3⟩
          rw [hp] at h
          simp only at h
          by_cases hps : p = some '/'
          · rw [if_pos hps] at h
            exact ⟨st3.line_nr1, Or.inr (by cases h; rfl)⟩
          · rw [if_neg hps] at h
            exact ih st3 e h
        · rw [if_neg hic] at h
          by_cases hn : c = none
          · rw [if_pos hn] at h
            exact ⟨st1.line_nr1, Or.inl (by cases h; rfl)⟩
          · rw [if_neg hn] at h
            exact ih st1 e h

theorem regexpLoop_err (ic : Bool) (was : Nat) :
    ∀ fuel (st : St) (e : String), regexpLoop ic was fuel st = Res.err e →
      e = errMsg was "unterminated regexp literal." ∨
      ∃ n, e = errMsg n "unterminated set in Regular Expression literal." ∨
        e = errMsg n "unexpected close comment in regexp." ∨
        e = errMsg n "unexpected comment." := by
  intro fuel
  induction fuel with
  | zero =>
    intro st e h
    simp [regexpLoop] at h
  | succ fuel ih =>
    intro st e h
    rcases hg : get true st with ⟨c, st1⟩
    simp only [regexpLoop, hg] at h
    by_cases hbr : c = some '['
    · rw [if_pos hbr] at h
      rcases hc : classLoop ic fuel st1 with st2 | e2 | _ <;> rw [hc] at h
      · exact ih st2 e h
      · obtain ⟨n, hn⟩ := classLoop_err ic fuel st1 e2 hc
        obtain rfl : e2 = e := by cases h; rfl
        rcases hn with hn | hn
        · exact Or.inr ⟨n, Or.inl hn⟩
        · exact Or.inr ⟨n, Or.inr (Or.inl hn)⟩
      · cases h
    · rw [if_neg hbr] at h
      by_cases hsl : c = some '/'
      · rw [if_pos hsl] at h
        rcases hicb : ic with _ | _ <;> subst hicb
        · rw [if_neg (by simp : ¬(false = true))] at h
          cases h
        · rw [if_pos (rfl : true = true)] at h
          rcases hp : peek st1 with ⟨p, st3⟩
          rw [hp] at h
          simp only at h
          by_cases hps : p = some '/' ∨ p = some '*'
          · rw [if_pos hps] at h
            exact Or.inr ⟨st3.line_nr1, Or.inr (Or.inr (by cases h; rfl))⟩
          · rw [if_neg hps] at h
            cases h
      · rw [if_neg hsl] at h
        by_cases hb : c = some '\\'
        · rw [if_pos hb] at h
          rcases hg2 : get true st1 with ⟨c2, st2⟩
          rw [hg2] at h
          simp only at h
          by_cases hic : ic = true ∧ c2 = some '*'
          · rw [if_pos hic] at h
            rcases hp : peek st2 with ⟨p, st3⟩
            rw [hp] at h
            simp only at h
            by_cases hps : p = some '/'
            · rw [if_pos hps] at h
              exact Or.inr ⟨st3.line_nr1, Or.inr (Or.inr (by cases h; rfl))⟩
            · rw [if_neg hps] at h
              exact ih st3 e h
          · rw [if_neg hic] at h
            by_cases hn : c2 = none
            · rw [if_pos hn] at h
              exact Or.inl (by cases h; rfl)
            · rw [if_neg hn] at h
              exact ih st2 e h
        · rw [if_neg hb] at h
          simp only at h
          by_cases hic : ic = true ∧ c = some '*'
          · rw [if_pos hic] at h
            rcases hp : peek st1 with ⟨p, st3⟩
            rw [hp] at h
            simp only at h
            by_cases hps : p = some '/'
            · rw [if_pos hps] at h
              exact Or.inr ⟨st3.line_nr1, Or.inr (Or.inr (by cases h; rfl))⟩
            · rw [if_neg hps] at h
              exact ih st3 e h
          · rw [if_neg hic] at h
            by_cases hn : c = none
            · rw [if_pos hn] at h
              exact Or.inl (by cases h; rfl)
            · rw [if_neg hn] at h
              exact ih st1 e h


/-- C6 counterexample: a regexp literal whose character class reaches end
of input.  The literal `/[a` begins on line 1, but the reported message
carries line 3 (where scanning stopped, after the end-of-input
over-advance) — not line 1 as the claim asserts for every error path. -/
theorem C6_class_set_error_line_counterexample :
    jsdev 64 (JSource.str "x = /[a\nb") ["debug"] JComments.absent =
      Res.err "JSDev: 3 unterminated set in Regular Expression literal." ∧
    "JSDev: 3 unterminated set in Regular Expression literal." ≠
      "JSDev: 1 unterminated set in Regular Expression literal." :=
  ⟨by rfl, by decide⟩

/-- C6 (amended): the `string` and `regexp` skippers report their
"unterminated ... literal." errors against the line on which the literal
began (the `line_nr` value at entry, restored in that error path); every
other error either comes from the character-class loop (the
"unterminated set" message, which does not restore the line number) or
is one of the close-comment/unexpected-comment errors reported at the
current position. -/
theorem C6_unterminated_literal_line_is_entry_line :
    (∀ (q : Char) (ic : Bool) (fuel : Nat) (st : St) (e : String),
      string q ic fuel st = Res.err e →
      e = errMsg st.line_nr1 "unterminated string literal." ∨
      ∃ n, e = errMsg n "unexpected close comment in string.") ∧
    (∀ (ic : Bool) (fuel : Nat) (st : St) (e : String),
      regexp ic fuel st = Res.err e →
      e = errMsg st.line_nr1 "unterminated regexp literal." ∨
      ∃ n, e = errMsg n "unterminated set in Regular Expression literal." ∨
        e = errMsg n "unexpected close comment in regexp." ∨
        e = errMsg n "unexpected comment.") :=
  ⟨fun q ic fuel st e h => stringLoop_err q ic st.line_nr1 fuel st e h,
   fun ic fuel st e h => regexpLoop_err ic st.line_nr1 fuel st e h⟩

/-- Witness for C6: the string skipper entered on line 3 with the input
exhausted reports its unterminated-literal error against line 3. -/
theorem C6_unterminated_literal_line_is_entry_line_witness :
    errMsg 3 "unterminated string literal." =
      errMsg (St.mk [] 3 none none []).line_nr1 "unterminated string literal." ∨
    ∃ n, errMsg 3 "unterminated string literal." =
      errMsg n "unexpected close comment in string." :=
  C6_unterminated_literal_line_is_entry_line.1 '"' false 5
    (St.mk [] 3 none none []) (errMsg 3 "unterminated string literal.") (by rfl)


/-! ### C7: termination of the body extractor -/

/-- C7: `stuff`'s main loop returns normally only by consuming a `*/` at
bracket depth zero (first conjunct: every normal return consumes a final
`*/`); a `*/` seen while the depth is positive is the fatal unbalanced
error (second conjunct) while at depth zero it terminates the body (third
conjunct); a closing bracket that would drive the depth negative is the
same fatal error (fourth conjunct); `/*debug if(x){y}*/` is accepted and
`/*debug if(x){y*/` fatally errors (fifth conjunct). -/
theorem C7_stuff_closes_only_balanced :
    (∀ (fuel : Nat) (left : Option Char) (paren : Int) (st st' : St),
      stuffLoop left paren fuel st = Res.ok st' →
      ∃ pre o, rem st = pre ++ ['*', '/'] ++ rem st' ∧ st'.out = st.out ++ o) ∧
    (∀ (fuel : Nat) (paren : Int) (st : St) (rest : List Char),
      rem st = '*' :: '/' :: rest → paren > 0 →
      ∃ n, starLoop paren (fuel + 1) st = Res.err (errMsg n "Unbalanced stuff")) ∧
    (∀ (fuel : Nat) (paren : Int) (st : St) (rest : List Char),
      rem st = '*' :: '/' :: rest → ¬paren > 0 →
      ∃ st', starLoop paren (fuel + 1) st = Res.ok (true, st') ∧
        rem st' = rest ∧ st'.out = st.out) ∧
    (∀ (fuel : Nat) (left : Option Char) (paren : Int) (st : St) (ch : Char)
       (rest : List Char),
      rem st = ch :: rest → (ch = ')' ∨ ch = '\x7d' ∨ ch = ']') →
      paren - 1 < 0 →
      ∃ n, stuffLoop left paren (fuel + 1) st =
        Res.err (errMsg n "Unbalanced stuff")) ∧
    (jsdev 64 (JSource.str "/*debug if(x)\x7by\x7d*/") ["debug"] JComments.absent =
      Res.ok "\x7bif(x)\x7by\x7d\x7d\n" ∧
     jsdev 64 (JSource.str "/*debug if(x)\x7by*/") ["debug"] JComments.absent =
      Res.err "JSDev: 1 Unbalanced stuff") := by
  refine ⟨stuffLoop_closer, ?_, ?_, ?_, by rfl, by rfl⟩
  · intro fuel paren st rest hrem hpar
    rcases hp : peek st with ⟨p, st1⟩
    obtain ⟨hpr, hpo⟩ := peek_eq hp
    have hp1 : p = some '*' := by
      have h0 := (peek_spec st).1
      rw [hp] at h0
      dsimp only at h0
      rw [h0, hrem]
      rfl
    subst hp1
    rcases hg : get false st1 with ⟨c1, st2⟩
    have hrem2 : rem st2 = '/' :: rest := by
      have h0 := (get_spec false st1).2.1
      rw [hg] at h0
      dsimp only at h0
      rw [h0, hpr, hrem]
      rfl
    rcases hp2 : peek st2 with ⟨p2, st3⟩
    have hp21 : p2 = some '/' := by
      have h0 := (peek_spec st2).1
      rw [hp2] at h0
      dsimp only at h0
      rw [h0, hrem2]
      rfl
    subst hp21
    rcases hg2 : get false st3 with ⟨c2, st4⟩
    refine ⟨st4.line_nr1, ?_⟩
    simp only [starLoop, hp, hg, hp2, hg2]
    simp [hpar]
  · intro fuel paren st rest hrem hpar
    rcases hp : peek st with ⟨p, st1⟩
    obtain ⟨hpr, hpo⟩ := peek_eq hp
    have hp1 : p = some '*' := by
      have h0 := (peek_spec st).1
      rw [hp] at h0
      dsimp only at h0
      rw [h0, hrem]
      rfl
    subst hp1
    rcases hg : get false st1 with ⟨c1, st2⟩
    obtain ⟨hgr, hgo⟩ := get_false_rem st1
    rw [hg] at hgr hgo
    dsimp only at hgr hgo
    have hrem2 : rem st2 = '/' :: rest := by
      have h0 := (get_spec false st1).2.1
      rw [hg] at h0
      dsimp only at h0
      rw [h0, hpr, hrem]
      rfl
    rcases hp2 : peek st2 with ⟨p2, st3⟩
    obtain ⟨hpr2, hpo2⟩ := peek_eq hp2
    have hp21 : p2 = some '/' := by
      have h0 := (peek_spec st2).1
      rw [hp2] at h0
      dsimp only at h0
      rw [h0, hrem2]
      rfl
    subst hp21
    rcases hg2 : get false st3 with ⟨c2, st4⟩
    obtain ⟨hgo2t, hgo2⟩ := get_false_rem st3
    rw [hg2] at hgo2t hgo2
    dsimp only at hgo2t hgo2
    have hrem4 : rem st4 = rest := by
      have h0 := (get_spec false st3).2.1
      rw [hg2] at h0
      dsimp only at h0
      rw [h0, hpr2, hrem2]
      rfl
    refine ⟨st4, ?_, hrem4, ?_⟩
    · simp only [starLoop, hp, hg, hp2, hg2]
      simp [hpar]
    · rw [hgo2, hpo2, hgo, hpo]
  · intro fuel left paren st ch rest hrem hcl hneg
    rcases hp : peek st with ⟨p, st1⟩
    obtain ⟨hpr, hpo⟩ := peek_eq hp
    have hp1 : p = some ch := by
      have h0 := (peek_spec st).1
      rw [hp] at h0
      dsimp only at h0
      rw [h0, hrem]
      rfl
    subst hp1
    have hstar : starLoop paren (fuel + 1) st = Res.ok (false, st1) := by
      simp only [starLoop, hp]
      rcases hcl with rfl | rfl | rfl <;> simp
    rcases hg : get true st1 with ⟨c1, st2⟩
    have hc1 : c1 = some ch := by
      have h0 := (get_spec true st1).1
      rw [hg] at h0
      dsimp only at h0
      rw [h0, hpr, hrem]
      rfl
    subst hc1
    refine ⟨st2.line_nr1, ?_⟩
    simp only [stuffLoop, hstar, hg]
    rcases hcl with rfl | rfl | rfl <;> simp [hneg]


/-- Witness for C7: the only-via-closer conjunct applied to the concrete
body `x*/`. -/
theorem C7_stuff_closes_only_balanced_witness :
    ∃ pre o,
      rem (St.mk [] 1 (some ['x', '*', '/']) none []) =
        pre ++ ['*', '/'] ++ rem (St.mk [] 1 (some []) none ['x']) ∧
      (St.mk [] 1 (some []) none ['x']).out =
        (St.mk [] 1 (some ['x', '*', '/']) none []).out ++ o :=
  C7_stuff_closes_only_balanced.1 5 (some '\x7b') 0
    (St.mk [] 1 (some ['x', '*', '/']) none [])
    (St.mk [] 1 (some []) none ['x']) (by rfl)


/-! ### C2: preservation of unmatched block comments -/

/-- C2: the copy loop for a block comment whose candidate tag did not
match echoes exactly what it consumes (first conjunct: whenever it
returns, the output grew by precisely the consumed characters, through
the closing `*/`); a `/` immediately followed by `*` during the copy is
the fatal nested-comment error (second conjunct); reaching end of input
is the fatal unterminated-comment error (third conjunct); and end to end,
`/*unknown stuff*/` with tag `unknown` undeclared is reproduced
byte-for-byte including its delimiters (fourth conjunct). -/
theorem C2_unknown_tag_comment_copied :
    (∀ (fuel : Nat) (c : Option Char) (st st' : St),
      echoCommentLoop c fuel st = Res.ok st' →
      ∃ d, rem st = d ++ rem st' ∧ st'.out = st.out ++ d) ∧
    (∀ (fuel : Nat) (st : St),
      (get true st).1 = some '*' →
      echoCommentLoop (some '/') (fuel + 1) st =
        Res.err (errMsg (get true st).2.line_nr1 "nested comment.")) ∧
    (∀ (fuel : Nat) (st : St),
      echoCommentLoop none (fuel + 1) st =
        Res.err (errMsg st.line_nr1 "unterminated comment.")) ∧
    jsdev 64 (JSource.str "/*unknown stuff*/") ["debug"] JComments.absent =
      Res.ok "/*unknown stuff*/\n" := by
  refine ⟨echoCommentLoop_consumes, ?_, ?_, by rfl⟩
  · intro fuel st h1
    rcases hg : get true st with ⟨c2, st1⟩
    rw [hg] at h1
    dsimp only at h1
    subst h1
    simp [echoCommentLoop, hg]
  · intro fuel st
    simp [echoCommentLoop]

/-- Witness for C2: the byte-for-byte conjunct applied to the concrete
comment remainder `u*/`. -/
theorem C2_unknown_tag_comment_copied_witness :
    ∃ d,
      rem (St.mk [] 1 (some ['*', '/']) (some 'u') []) =
        d ++ rem (St.mk [] 1 (some []) none ['u', '*', '/']) ∧
      (St.mk [] 1 (some []) none ['u', '*', '/']).out =
        (St.mk [] 1 (some ['*', '/']) (some 'u') []).out ++ d :=
  C2_unknown_tag_comment_copied.1 8 (some 'u')
    (St.mk [] 1 (some ['*', '/']) (some 'u') [])
    (St.mk [] 1 (some []) none ['u', '*', '/']) (by rfl)


/-! ### C3/C4: structure of the split input -/

theorem splitEol_ne_nil : ∀ (b : Bool) (cs : List Char), splitEol b cs ≠ [] := by
  intro b cs
  match b, cs with
  | _, [] => simp [splitEol]
  | b, c :: rest =>
    simp only [splitEol]
    by_cases h1 : c = '\n'
    · rcases b with _ | _ <;> simp [h1, splitEol_ne_nil false rest]
    · rw [if_neg h1]
      by_cases h2 : c = '\r'
      · simp [h2]
      · rw [if_neg h2]
        rcases splitEol false rest with _ | ⟨l, ls⟩ <;> simp

theorem splitEol_flat_mem :
    ∀ (cs : List Char) (b : Bool),
      ∀ ch ∈ (splitEol b cs).flatMap (fun l => l ++ ['\n']),
      ch ∈ cs ∨ ch = '\n' := by
  intro cs
  induction cs with
  | nil =>
    intro b ch hch
    simp [splitEol] at hch
    exact Or.inr hch
  | cons c rest ih =>
    intro b ch hch
    simp only [splitEol] at hch
    by_cases h1 : c = '\n'
    · rw [if_pos h1] at hch
      rcases b with _ | _
      · simp only [Bool.false_eq_true, if_neg, List.flatMap_cons,
          List.nil_append] at hch
        rcases List.mem_cons.mp hch with rfl | hch2
        · exact Or.inr rfl
        · rcases ih false ch hch2 with h | h
          · exact Or.inl (List.mem_cons_of_mem _ h)
          · exact Or.inr h
      · rw [if_pos rfl] at hch
        rcases ih false ch hch with h | h
        · exact Or.inl (List.mem_cons_of_mem _ h)
        · exact Or.inr h
    · rw [if_neg h1] at hch
      by_cases h2 : c = '\r'
      · rw [if_pos h2] at hch
        simp only [List.flatMap_cons, List.nil_append] at hch
        rcases List.mem_cons.mp hch with rfl | hch2
        · exact Or.inr rfl
        · rcases ih true ch hch2 with h | h
          · exact Or.inl (List.mem_cons_of_mem _ h)
          · exact Or.inr h
      · rw [if_neg h2] at hch
        rcases hs : splitEol false rest with _ | ⟨l, ls⟩
        · exact absurd hs (splitEol_ne_nil false rest)
        · rw [hs] at hch
          simp only [List.flatMap_cons, List.cons_append] at hch
          rcases List.mem_cons.mp hch with rfl | hch2
          · exact Or.inl (List.mem_cons_self _ _)
          · have hch3 : ch ∈ (splitEol false rest).flatMap (fun u => u ++ ['\n']) := by
              rw [hs]
              simpa using hch2
            rcases ih false ch hch3 with h | h
            · exact Or.inl (List.mem_cons_of_mem _ h)
            · exact Or.inr h

theorem splitEol_flat_no_cr :
    ∀ (cs : List Char) (b : Bool),
      '\r' ∉ (splitEol b cs).flatMap (fun l => l ++ ['\n']) := by
  intro cs
  induction cs with
  | nil =>
    intro b
    simp [splitEol]
  | cons c rest ih =>
    intro b hch
    simp only [splitEol] at hch
    by_cases h1 : c = '\n'
    · rw [if_pos h1] at hch
      rcases b with _ | _
      · simp only [Bool.false_eq_true, if_neg, List.flatMap_cons,
          List.nil_append] at hch
        rcases List.mem_cons.mp hch with h | h
        · exact absurd h (by decide)
        · exact ih false h
      · rw [if_pos rfl] at hch
        exact ih false hch
    · rw [if_neg h1] at hch
      by_cases h2 : c = '\r'
      · rw [if_pos h2] at hch
        simp only [List.flatMap_cons, List.nil_append] at hch
        rcases List.mem_cons.mp hch with h | h
        · exact absurd h (by decide)
        · exact ih true h
      · rw [if_neg h2] at hch
        rcases hs : splitEol false rest with _ | ⟨l, ls⟩
        · exact absurd hs (splitEol_ne_nil false rest)
        · rw [hs] at hch
          simp only [List.flatMap_cons, List.cons_append] at hch
          rcases List.mem_cons.mp hch with h | h
          · exact h2 h.symm
          · refine ih false ?_
            rw [hs]
            simpa using h

theorem splitEol_no_cr_flat :
    ∀ (cs : List Char), '\r' ∉ cs →
      (splitEol false cs).flatMap (fun l => l ++ ['\n']) = cs ++ ['\n'] := by
  intro cs
  induction cs with
  | nil =>
    intro _
    simp [splitEol]
  | cons c rest ih =>
    intro hcr
    have hcr2 : '\r' ∉ rest := fun h => hcr (List.mem_cons_of_mem _ h)
    have hc : c ≠ '\r' := fun h => hcr (h ▸ List.mem_cons_self _ _)
    by_cases h1 : c = '\n'
    · subst h1
      have hred : splitEol false ('\n' :: rest) = [] :: splitEol false rest := rfl
      rw [hred]
      simp only [List.flatMap_cons, List.nil_append]
      rw [ih hcr2]
      rfl
    · have hred : splitEol false (c :: rest) =
          (match splitEol false rest with
           | [] => [[c]]
           | l :: ls => (c :: l) :: ls) := by
        simp only [splitEol, if_neg h1, if_neg hc]
      rw [hred]
      rcases hs : splitEol false rest with _ | ⟨l, ls⟩
      · exact absurd hs (splitEol_ne_nil false rest)
      · have hihs := ih hcr2
        rw [hs] at hihs
        simp only [List.flatMap_cons, List.cons_append, List.append_assoc,
          List.singleton_append, List.nil_append] at hihs ⊢
        rw [hihs]

/-- A character that triggers no special handling in the dispatcher. -/
def plainChar (ch : Char) : Prop :=
  ch ≠ '/' ∧ ch ≠ '\'' ∧ ch ≠ '"' ∧ ch ≠ '\x60'

instance (ch : Char) : Decidable (plainChar ch) := by
  unfold plainChar
  infer_instance

/-- On input whose remaining stream contains only plain characters, the
dispatcher loop succeeds and echoes that stream verbatim. -/
theorem processGo_echo (tags : List (List Char)) (methods : List (Option (List Char))) :
    ∀ fuel (left : Option Char) (st : St),
      (∀ ch ∈ rem st, plainChar ch) →
      (rem st).length < fuel →
      ∃ stf, processLoop tags methods fuel (get false st).1 left (get false st).2 =
          Res.ok stf ∧
        stf.out = st.out ++ rem st := by
  intro fuel
  induction fuel with
  | zero =>
    intro left st _ hlen
    exact absurd hlen (by omega)
  | succ fuel ih =>
    intro left st hplain hlen
    rcases hg : get false st with ⟨c, st1⟩
    dsimp only
    rcases c with _ | ch
    · obtain ⟨hr0, hr1, ho1⟩ := get_eof hg
      refine ⟨st1, by simp [processLoop], ?_⟩
      rw [ho1, hr0]
      simp
    · obtain ⟨hrc, ho1⟩ := get_false_cons hg
      have hmem : ch ∈ rem st := by
        rw [hrc]
        exact List.mem_cons_self _ _
      obtain ⟨hch1, hch2, hch3, hch4⟩ := hplain ch hmem
      have hred : processLoop tags methods (fuel + 1) (some ch) left st1 =
          (match get false (emit [ch] st1) with
           | (c2, st2) => processLoop tags methods fuel c2
               (if ' ' < ch then some ch else left) st2) := by
        simp only [processLoop]
        rw [if_neg (by simp [hch2, hch3, hch4]), if_neg hch1]
      obtain ⟨stf, hstf, hout⟩ := ih (if ' ' < ch then some ch else left) (emit [ch] st1)
        (by intro u hu
            rw [rem_emit] at hu
            exact hplain u (by rw [hrc]; exact List.mem_cons_of_mem _ hu))
        (by rw [rem_emit]
            have hlenc : (rem st).length = (rem st1).length + 1 := by rw [hrc]; simp
            omega)
      refine ⟨stf, ?_, ?_⟩
      · rw [hred]
        rcases hg2 : get false (emit [ch] st1) with ⟨c2, st2⟩
        rw [hg2] at hstf
        dsimp only at hstf
        exact hstf
      · rw [hout, rem_emit, out_emit, ho1, hrc]
        simp

/-- `process` on an all-plain stream echoes it verbatim. -/
theorem process_echo (tags : List (List Char)) (methods : List (Option (List Char)))
    (fuel : Nat) (st : St)
    (hplain : ∀ ch ∈ rem st, plainChar ch) (hlen : (rem st).length < fuel) :
    ∃ stf, process tags methods fuel st = Res.ok stf ∧
      stf.out = st.out ++ rem st := by
  have h0 : process tags methods fuel st =
      processLoop tags methods fuel (get false st).1 none (get false st).2 := by
    unfold process
    rcases get false st with ⟨c, st1⟩
    rfl
  rw [h0]
  exact processGo_echo tags methods fuel none st hplain hlen


/-- The general echo theorem at the entry point: on a source whose
characters are all plain, conversion succeeds and the output is the split
lines each re-joined with a single `\n` — the input normalized to `\n`
line endings plus one synthetic trailing newline. -/
theorem jsdev_plain_echo :
    ∀ (fuel : Nat) (source : String) (tags : List String)
      (tp : List (List Char) × List (Option (List Char))),
      (∀ ch ∈ source.data, plainChar ch) →
      checkTags (tags.map String.data) = Res.ok tp →
      tags ≠ [] →
      ((jsSplit source.data).flatMap (fun l => l ++ ['\n'])).length < fuel →
      jsdev fuel (JSource.str source) tags JComments.absent =
        Res.ok (String.mk ((jsSplit source.data).flatMap (fun l => l ++ ['\n']))) := by
  intro fuel source tags tp hplain hck hne hlen
  unfold jsdev
  rw [hck]
  rcases tp with ⟨ts, ms⟩
  dsimp only
  have hrem0 : rem (initSt (JSource.str source) JComments.absent) =
      (jsSplit source.data).flatMap (fun l => l ++ ['\n']) := by
    simp [rem, remCore, initSt, sourceLines, headerOut, optList]
  obtain ⟨stf, hpr, hout⟩ := process_echo ts ms fuel
    (initSt (JSource.str source) JComments.absent)
    (by rw [hrem0]
        intro u hu
        rcases splitEol_flat_mem source.data false u hu with h | h
        · exact hplain u h
        · subst h
          decide)
    (by rw [hrem0]; exact hlen)
  rw [hpr]
  have hof : stf.out = (jsSplit source.data).flatMap (fun l => l ++ ['\n']) := by
    rw [hout, hrem0]
    simp [initSt, headerOut]
  show Res.ok (String.mk stf.out) = _
  rw [hof]

/-- C3 counterexample: converting the comment-free source `x` yields
`x\n`, not the unchanged input — the stream appends a synthetic newline. -/
theorem C3_identity_counterexample :
    jsdev 64 (JSource.str "x") ["debug"] JComments.absent = Res.ok "x\n" ∧
    ("x\n" : String) ≠ "x" := ⟨by rfl, by decide⟩

/-- C3 (amended): on input text containing no block comments and no
string, regexp or comment starters at all (no `/` and no quote
characters), with a well-formed tag configuration, the conversion
succeeds and the output is the input with line endings normalized to
`\n` plus one synthetic trailing `\n`. -/
theorem C3_plain_input_echoed :
    ∀ (fuel : Nat) (source : String) (tags : List String)
      (tp : List (List Char) × List (Option (List Char))),
      (∀ ch ∈ source.data, plainChar ch) →
      checkTags (tags.map String.data) = Res.ok tp →
      tags ≠ [] →
      ((jsSplit source.data).flatMap (fun l => l ++ ['\n'])).length < fuel →
      jsdev fuel (JSource.str source) tags JComments.absent =
        Res.ok (String.mk ((jsSplit source.data).flatMap (fun l => l ++ ['\n']))) :=
  jsdev_plain_echo

/-- Witness for C3: source `ab` with tag `debug` echoes to `ab\n`. -/
theorem C3_plain_input_echoed_witness :
    jsdev 10 (JSource.str "ab") ["debug"] JComments.absent =
      Res.ok (String.mk ((jsSplit "ab".data).flatMap (fun l => l ++ ['\n']))) :=
  C3_plain_input_echoed 10 "ab" ["debug"] ([['d', 'e', 'b', 'u', 'g']], [none])
    (by decide) (by rfl) (by decide) (by decide)

/-- C4 counterexample: conversion is not idempotent — the first run on
`x` yields `x\n`, and the second run on that output yields `x\n\n`, not
the first output unchanged. -/
theorem C4_idempotence_counterexample :
    jsdev 64 (JSource.str "x") ["debug"] JComments.absent = Res.ok "x\n" ∧
    jsdev 64 (JSource.str "x\n") ["debug"] JComments.absent = Res.ok "x\n\n" ∧
    ("x\n\n" : String) ≠ "x\n" := ⟨by rfl, by rfl, by decide⟩

/-- C4 (amended): for sources whose characters are all plain (no `/` and
no quote characters), both runs succeed, the second pass performs no
substitution (it echoes its input), and the second run's output is the
first run's output with exactly one additional synthetic trailing
newline. -/
theorem C4_second_run_appends_one_newline :
    ∀ (source : String) (tags : List String)
      (tp : List (List Char) × List (Option (List Char))) (fuel1 fuel2 : Nat),
      (∀ ch ∈ source.data, plainChar ch) →
      checkTags (tags.map String.data) = Res.ok tp →
      tags ≠ [] →
      ((jsSplit source.data).flatMap (fun l => l ++ ['\n'])).length < fuel1 →
      ((jsSplit source.data).flatMap (fun l => l ++ ['\n'])).length + 1 < fuel2 →
      ∃ out1 : String,
        jsdev fuel1 (JSource.str source) tags JComments.absent = Res.ok out1 ∧
        jsdev fuel2 (JSource.str out1) tags JComments.absent =
          Res.ok (out1 ++ "\n") := by
  intro source tags tp fuel1 fuel2 hplain hck hne hlen1 hlen2
  refine ⟨String.mk ((jsSplit source.data).flatMap (fun l => l ++ ['\n'])),
    jsdev_plain_echo fuel1 source tags tp hplain hck hne hlen1, ?_⟩
  have hdata : (String.mk ((jsSplit source.data).flatMap (fun l => l ++ ['\n']))).data =
      (jsSplit source.data).flatMap (fun l => l ++ ['\n']) := rfl
  have hsplit2 : (jsSplit ((jsSplit source.data).flatMap
        (fun l => l ++ ['\n']))).flatMap (fun l => l ++ ['\n']) =
      (jsSplit source.data).flatMap (fun l => l ++ ['\n']) ++ ['\n'] :=
    splitEol_no_cr_flat _ (splitEol_flat_no_cr source.data false)
  have h2 := jsdev_plain_echo fuel2
    (String.mk ((jsSplit source.data).flatMap (fun l => l ++ ['\n']))) tags tp
    (by rw [hdata]
        intro u hu
        rcases splitEol_flat_mem source.data false u hu with h | h
        · exact hplain u h
        · subst h
          decide)
    hck hne
    (by rw [hdata, hsplit2]
        simpa using hlen2)
  rw [h2]
  rw [hdata, hsplit2]
  rfl


/-- Witness for C4: source `ab`, first run gives `ab\n`, second run gives
`ab\n\n`. -/
theorem C4_second_run_appends_one_newline_witness :
    ∃ out1 : String,
      jsdev 10 (JSource.str "ab") ["debug"] JComments.absent = Res.ok out1 ∧
      jsdev 10 (JSource.str out1) ["debug"] JComments.absent =
        Res.ok (out1 ++ "\n") :=
  C4_second_run_appends_one_newline "ab" ["debug"]
    ([['d', 'e', 'b', 'u', 'g']], [none]) 10 10
    (by decide) (by rfl) (by decide) (by decide) (by decide)


/-! ### The 2017 ES-module revision (src/unnamed/part_000)

The 2017 revision of `jsdev` is character-for-character identical to the
2016 revision in its lower components — `error`, `is_alphanum`, `emit`,
`get`, `peek`, `unget`, `string`, `pre_regexp`, `regexp`, `stuff`, the
tag validation and the source splitting — up to `var`/`let`, quote
style, `null`/`undefined` (both the falsy sentinel, `none` here) and
`return error(...)` versus `error(...)` (the throw makes the `return`
dead), all of which erase to the same embedding; those definitions are
shared.  The functions from `condition` up through the call graph
(`expand`, `process`, `jsdev`) are re-declared here from the 2017
source.  The one textual difference inside `condition` — the 2017
revision tests `c === undefined` at the top of the loop rather than
inside the `else if` chain — does not change which branch any character
takes, because the tests are mutually exclusive; the disjoint-pattern
match below renders both orders. -/
namespace ES17

def conditionLoop (left : Option Char) (paren : Int) : Nat → St → Res St
  | 0, _ => Res.timeout
  | fuel + 1, st =>
    match get true st with
    | (c, st) =>
      match c with
      | some '(' => conditionLoop (updLeft left c) (paren + 1) fuel st
      | some '\x7b' => conditionLoop (updLeft left c) (paren + 1) fuel st
      | some '[' => conditionLoop (updLeft left c) (paren + 1) fuel st
      | some ')' =>
        if paren - 1 = 0 then Res.ok st
        else conditionLoop (updLeft left c) (paren - 1) fuel st
      | some '\x7d' =>
        if paren - 1 = 0 then Res.ok st
        else conditionLoop (updLeft left c) (paren - 1) fuel st
      | some ']' =>
        if paren - 1 = 0 then Res.ok st
        else conditionLoop (updLeft left c) (paren - 1) fuel st
      | none => Res.err (errMsg st.line_nr1 "Unterminated condition.")
      | some '\'' =>
        (match string '\'' true fuel st with
         | Res.ok st => conditionLoop (updLeft left (some '\'')) paren fuel st
         | e => e)
      | some '"' =>
        (match string '"' true fuel st with
         | Res.ok st => conditionLoop (updLeft left (some '"')) paren fuel st
         | e => e)
      | some '\x60' =>
        (match string '\x60' true fuel st with
         | Res.ok st => conditionLoop (updLeft left (some '\x60')) paren fuel st
         | e => e)
      | some '/' =>
        (match peek st with
         | (p, st) =>
           if p = some '/' ∨ p = some '*' then
             Res.err (errMsg st.line_nr1 "unexpected comment.")
           else if pre_regexp left then
             match regexp true fuel st with
             | Res.ok st => conditionLoop (updLeft left (some '/')) paren fuel st
             | e => e
           else conditionLoop (updLeft left (some '/')) paren fuel st)
      | some '*' =>
        (match peek st with
         | (p, st) =>
           if p = some '/' then Res.err (errMsg st.line_nr1 "unclosed condition.")
           else conditionLoop (updLeft left (some '*')) paren fuel st)
      | some ch => conditionLoop (updLeft left (some ch)) paren fuel st

def condition (fuel : Nat) (st : St) : Res St :=
  conditionLoop (some '\x7b') 0 fuel st

def expand (methods : List (Option (List Char))) (tag_nr : Nat)
    (fuel : Nat) (st : St) : Res St :=
  match peek st with
  | (c, st) =>
    match (if c = some '(' then
             match condition fuel (emit "if ".data st) with
             | Res.ok st => Res.ok (emit [' '] st)
             | e => e
           else Res.ok st) with
    | Res.ok st =>
      let st := emit ['\x7b'] st
      match methods.getD tag_nr none with
      | some m =>
        (match stuff fuel (emit (m ++ ['(']) st) with
         | Res.ok st => Res.ok (emit [')', ';', '\x7d'] st)
         | e => e)
      | none =>
        (match stuff fuel st with
         | Res.ok st => Res.ok (emit ['\x7d'] st)
         | e => e)
    | e => e

def processLoop (tags : List (List Char)) (methods : List (Option (List Char))) :
    Nat → Option Char → Option Char → St → Res St
  | 0, _, _, _ => Res.timeout
  | fuel + 1, c, left, st =>
    match c with
    | none => Res.ok st
    | some ch =>
      if ch = '\'' ∨ ch = '"' ∨ ch = '\x60' then
        match string ch false fuel (emit [ch] st) with
        | Res.ok st =>
          (match get false st with
           | (c, st) => processLoop tags methods fuel c left st)
        | e => e
      else if ch = '/' then
        match peek st with
        | (p, st) =>
          if p = some '/' then
            match lineCommentLoop fuel (emit ['/'] st) with
            | Res.ok st =>
              (match get false st with
               | (c, st) => processLoop tags methods fuel c left st)
            | e => e
          else if p = some '*' then
            match get false st with
            | (_, st) =>
              match tagScan fuel st with
              | Res.ok (tag, b, st) =>
                let st := unget b st
                match (if tag = [] then none
                       else List.findIdx? (fun t => t = tag) tags) with
                | some i =>
                  (match expand methods i fuel st with
                   | Res.ok st =>
                     (match get false st with
                      | (c, st) => processLoop tags methods fuel c left st)
                   | e => e)
                | none =>
                  (match echoCommentLoop b fuel (emit ('/' :: '*' :: tag) st) with
                   | Res.ok st =>
                     (match get false st with
                      | (c, st) => processLoop tags methods fuel c left st)
                   | e => e)
              | Res.err e => Res.err e
              | Res.timeout => Res.timeout
          else
            match (if pre_regexp left then regexp false fuel (emit ['/'] st)
                   else Res.ok (emit ['/'] st)) with
            | Res.ok st =>
              (match get false st with
               | (c, st) => processLoop tags methods fuel c (some '/') st)
            | e => e
      else
        match get false (emit [ch] st) with
        | (c2, st) =>
          processLoop tags methods fuel c2 (if ' ' < ch then some ch else left) st

def process (tags : List (List Char)) (methods : List (Option (List Char)))
    (fuel : Nat) (st : St) : Res St :=
  match get false st with
  | (c, st) => processLoop tags methods fuel c none st

def jsdev (fuel : Nat) (source : JSource) (tags : List String)
    (comments : JComments) : Res String :=
  match checkTags (tags.map String.data) with
  | Res.ok (ts, ms) =>
    (match process ts ms fuel (initSt source comments) with
     | Res.ok st => Res.ok (String.mk st.out)
     | Res.err e => Res.err e
     | Res.timeout => Res.timeout)
  | Res.err e => Res.err e
  | Res.timeout => Res.timeout

end ES17

/-- C10: the 2016 revision (src/jsdev.js) and the 2017 ES-module revision
(src/unnamed/part_000) implement the same conversion: on every (source,
tags, comments) triple and fuel bound, the two `jsdev` functions return
identical results — the same output string, or an error with the same
message. -/
theorem C10_revisions_equivalent :
    ∀ (fuel : Nat) (source : JSource) (tags : List String)
      (comments : JComments),
      jsdev fuel source tags comments = ES17.jsdev fuel source tags comments := by
  have h1 : @conditionLoop = @ES17.conditionLoop := by
    delta conditionLoop ES17.conditionLoop
    rfl
  have h2 : @condition = @ES17.condition := by
    delta condition ES17.condition
    rw [h1]
  have h3 : @expand = @ES17.expand := by
    delta expand ES17.expand
    rw [h2]
  have h4 : @processLoop = @ES17.processLoop := by
    delta processLoop ES17.processLoop
    rw [h3]
  have h5 : @process = @ES17.process := by
    delta process ES17.process
    rw [h4]
  have h6 : @jsdev = @ES17.jsdev := by
    delta jsdev ES17.jsdev
    rw [h5]
  intro fuel source tags comments
  rw [h6]

end JSDev
